import Mathlib

/-!
# LLM commit-message helper (pkg/gui/controllers/helpers/llm_helper.go)

A shallow embedding of `LLMHelper.GenerateCommitMessage` and
`LLMHelper.validateGeneratedMessage`, together with the parts of the Go
standard library they call (`strings.TrimSpace`, `strings.HasPrefix`,
`strings.Split`, `utf8.ValidString`, `unicode.IsSpace`).

A Go `string` is an immutable sequence of bytes, not necessarily valid UTF-8;
it is embedded as `List (Fin 256)`.  A `rune` is embedded as a `Nat`.
The outside world (the spawned shell process, the context deadline) is an
explicit parameter; log lines and the process spawn are returned as a trace.
-/

namespace Lazygit

/-- A Go `byte` (`uint8`). -/
abbrev Byte := Fin 256

/-- A Go `string`: a sequence of bytes. -/
abbrev GoString := List Byte

/-! ## unicode/utf8 -/

namespace utf8

/-- Go `utf8.RuneError`, the replacement character U+FFFD. -/
def RuneError : Nat := 0xFFFD
/-- Go `utf8.RuneSelf`: bytes below it are single-byte runes. -/
def RuneSelf : Nat := 0x80
/-- Go `utf8.MaxRune`. -/
def MaxRune : Nat := 0x10FFFF
/-- Go `utf8.UTFMax`: longest encoding of a rune, in bytes. -/
def UTFMax : Nat := 4

def surrogateMin : Nat := 0xD800
def surrogateMax : Nat := 0xDFFF

def t1 : Nat := 0x00
def tx : Nat := 0x80
def t2 : Nat := 0xC0
def t3 : Nat := 0xE0
def t4 : Nat := 0xF0
def t5 : Nat := 0xF8

def maskx : Nat := 0x3F
def mask2 : Nat := 0x1F
def mask3 : Nat := 0x0F
def mask4 : Nat := 0x07

def rune1Max : Nat := 0x7F
def rune2Max : Nat := 0x7FF
def rune3Max : Nat := 0xFFFF

def locb : Nat := 0x80
def hicb : Nat := 0xBF

/-- Table entry `xx`: invalid first byte, size 1. -/
def xx : Nat := 0xF1
/-- Table entry `as`: ASCII, size 1. -/
def as_ : Nat := 0xF0
def s1 : Nat := 0x02
def s2 : Nat := 0x13
def s3 : Nat := 0x03
def s4 : Nat := 0x23
def s5 : Nat := 0x34
def s6 : Nat := 0x04
def s7 : Nat := 0x44

/-- The table `first [256]uint8` of `unicode/utf8`: information about the
first byte of a UTF-8 sequence, written by the rows of the table. -/
def first (b : Byte) : Nat :=
  if b.val < 0x80 then as_          -- 0x00-0x7F
  else if b.val < 0xC2 then xx      -- 0x80-0xBF, 0xC0, 0xC1
  else if b.val < 0xE0 then s1      -- 0xC2-0xDF
  else if b.val = 0xE0 then s2
  else if b.val < 0xED then s3      -- 0xE1-0xEC
  else if b.val = 0xED then s4
  else if b.val < 0xF0 then s3      -- 0xEE, 0xEF
  else if b.val = 0xF0 then s5
  else if b.val < 0xF4 then s6      -- 0xF1-0xF3
  else if b.val = 0xF4 then s7
  else xx                           -- 0xF5-0xFF

/-- The table `acceptRanges [16]acceptRange`: `(lo, hi)` of the second byte;
entries past index 4 are the zero value. -/
def acceptRanges (i : Nat) : Nat × Nat :=
  match i with
  | 0 => (locb, hicb)
  | 1 => (0xA0, hicb)
  | 2 => (locb, 0x9F)
  | 3 => (0x90, hicb)
  | 4 => (locb, 0x8F)
  | _ => (0, 0)

/-- Go `utf8.RuneStart`: `b&0xC0 != 0x80`. -/
def RuneStart (b : Byte) : Bool := b.val &&& 0xC0 != 0x80

/-- Go `utf8.DecodeRuneInString`: the first rune of `s` and its width in
bytes; `(RuneError, 0)` on the empty string, `(RuneError, 1)` on an invalid
encoding. -/
def DecodeRuneInString (s : GoString) : Nat × Nat :=
  let n := s.length
  if n < 1 then (RuneError, 0) else
  let s0 := (s.getD 0 0).val
  let x := first (s.getD 0 0)
  if x ≥ as_ then
    -- mask := rune(x) << 31 >> 31 on int32: all ones when x is odd (xx), else 0
    let mask : Nat := if (x <<< 31) % 2 ^ 32 ≥ 2 ^ 31 then 0xFFFFFFFF else 0
    ((s0 &&& (0xFFFFFFFF ^^^ mask)) ||| (RuneError &&& mask), 1)
  else
  let sz := x &&& 7
  let accept := acceptRanges (x >>> 4)
  if n < sz then (RuneError, 1) else
  let b1 := (s.getD 1 0).val
  if b1 < accept.1 ∨ accept.2 < b1 then (RuneError, 1) else
  if sz ≤ 2 then (((s0 &&& mask2) <<< 6) ||| (b1 &&& maskx), 2) else
  let b2 := (s.getD 2 0).val
  if b2 < locb ∨ hicb < b2 then (RuneError, 1) else
  if sz ≤ 3 then (((s0 &&& mask3) <<< 12) ||| ((b1 &&& maskx) <<< 6) ||| (b2 &&& maskx), 3) else
  let b3 := (s.getD 3 0).val
  if b3 < locb ∨ hicb < b3 then (RuneError, 1) else
  (((s0 &&& mask4) <<< 18) ||| ((b1 &&& maskx) <<< 12) ||| ((b2 &&& maskx) <<< 6) ||| (b3 &&& maskx), 4)

/-- The backward scan of `DecodeLastRuneInString`:
`for start--; start >= lim; start-- { if RuneStart(s[start]) { break } }`,
entered with `start` already decremented. -/
def DecodeLastRuneInString.scan (s : GoString) (lim : Int) : Nat → Int → Int
  | 0, start => start
  | fuel + 1, start =>
    if start ≥ lim then
      if RuneStart (s.getD start.toNat 0) then start
      else DecodeLastRuneInString.scan s lim fuel (start - 1)
    else start

/-- Go `utf8.DecodeLastRuneInString`: the last rune of `s` and its width. -/
def DecodeLastRuneInString (s : GoString) : Nat × Nat :=
  let end_ : Int := s.length
  if end_ = 0 then (RuneError, 0) else
  let start : Int := end_ - 1
  let r := (s.getD start.toNat 0).val
  if r < RuneSelf then (r, 1) else
  let lim : Int := if end_ - UTFMax < 0 then 0 else end_ - UTFMax
  let start := DecodeLastRuneInString.scan s lim (UTFMax + 1) (start - 1)
  let start := if start < 0 then 0 else start
  let (r, size) := DecodeRuneInString (s.drop start.toNat)
  if start + size ≠ end_ then (RuneError, 1) else (r, size)

/-- The main loop of Go `utf8.ValidString` over the suffix `s[i:]`. -/
def ValidString.loop : Nat → GoString → Bool
  | 0, _ => true
  | _ + 1, [] => true
  | fuel + 1, si :: t =>
    if si.val < RuneSelf then ValidString.loop fuel t else
    let x := first si
    if x = xx then false else
    let size := x &&& 7
    if size > (si :: t).length then false else
    let accept := acceptRanges (x >>> 4)
    let c1 := (t.getD 0 0).val
    if c1 < accept.1 ∨ accept.2 < c1 then false
    else if size = 2 then ValidString.loop fuel (t.drop 1)
    else
      let c2 := (t.getD 1 0).val
      if c2 < locb ∨ hicb < c2 then false
      else if size = 3 then ValidString.loop fuel (t.drop 2)
      else
        let c3 := (t.getD 2 0).val
        if c3 < locb ∨ hicb < c3 then false
        else ValidString.loop fuel (t.drop (size - 1))

/-- Go `utf8.ValidString`: whether `s` consists entirely of valid
UTF-8-encoded runes.  (The library first skips blocks of eight ASCII bytes;
the main loop below skips the same bytes one at a time.) -/
def ValidString (s : GoString) : Bool := ValidString.loop s.length s

/-- Go `utf8.AppendRune` / `utf8.EncodeRune`: the UTF-8 encoding of a rune;
surrogates and out-of-range values are encoded as `RuneError`. -/
def EncodeRune (r : Nat) : GoString :=
  if r ≤ rune1Max then [Fin.ofNat r]
  else if r ≤ rune2Max then [Fin.ofNat (t2 ||| (r >>> 6)), Fin.ofNat (tx ||| (r &&& maskx))]
  else if r > MaxRune ∨ (surrogateMin ≤ r ∧ r ≤ surrogateMax) then [0xEF, 0xBF, 0xBD]
  else if r ≤ rune3Max then
    [Fin.ofNat (t3 ||| (r >>> 12)), Fin.ofNat (tx ||| ((r >>> 6) &&& maskx)),
     Fin.ofNat (tx ||| (r &&& maskx))]
  else
    [Fin.ofNat (t4 ||| (r >>> 18)), Fin.ofNat (tx ||| ((r >>> 12) &&& maskx)),
     Fin.ofNat (tx ||| ((r >>> 6) &&& maskx)), Fin.ofNat (tx ||| (r &&& maskx))]

/-- Go `utf8.ValidRune`: whether the rune can be legally encoded as UTF-8,
i.e. is in range and not a surrogate half. -/
def ValidRune (r : Nat) : Bool :=
  if r < surrogateMin then true
  else if surrogateMax < r ∧ r ≤ MaxRune then true
  else false

/-- Go `utf8.RuneCountInString`: the number of runes in `s`, an invalid byte
counting as one rune of width 1. -/
def RuneCountInString.loop : Nat → GoString → Nat
  | 0, _ => 0
  | fuel + 1, s =>
    if s.length = 0 then 0
    else 1 + RuneCountInString.loop fuel (s.drop (DecodeRuneInString s).2)

def RuneCountInString (s : GoString) : Nat := RuneCountInString.loop s.length s

end utf8

/-! ## unicode -/

namespace unicode

def MaxLatin1 : Nat := 0xFF

/-- The 16-bit ranges `(Lo, Hi, Stride)` of the table `unicode.White_Space`. -/
def White_Space_R16 : List (Nat × Nat × Nat) :=
  [(0x0009, 0x000d, 1), (0x0020, 0x0020, 1), (0x0085, 0x0085, 1), (0x00a0, 0x00a0, 1),
   (0x1680, 0x1680, 1), (0x2000, 0x200a, 1), (0x2028, 0x2029, 1), (0x202f, 0x202f, 1),
   (0x205f, 0x205f, 1), (0x3000, 0x3000, 1)]

/-- Field `LatinOffset` of `unicode.White_Space`: the number of ranges with
`Hi <= MaxLatin1`. -/
def White_Space_LatinOffset : Nat := 4

/-- Go `unicode.is16`: whether `r` is in the sorted slice of 16-bit ranges. -/
def is16 (ranges : List (Nat × Nat × Nat)) (r : Nat) : Bool :=
  ranges.any (fun rg => decide (rg.1 ≤ r ∧ r ≤ rg.2.1 ∧ (rg.2.2 = 1 ∨ (r - rg.1) % rg.2.2 = 0)))

/-- Go `unicode.isExcludingLatin` on `White_Space` (which has no 32-bit ranges). -/
def isExcludingLatin_White_Space (r : Nat) : Bool :=
  let r16 := White_Space_R16
  let off := White_Space_LatinOffset
  if r16.length > off ∧ r ≤ (r16.getD (r16.length - 1) (0, 0, 0)).2.1 then
    is16 (r16.drop off) r
  else false

/-- Go `unicode.IsSpace`: whether the rune is a space character as defined by
Unicode's White Space property. -/
def IsSpace (r : Nat) : Bool :=
  if r ≤ MaxLatin1 then
    decide (r = 0x09 ∨ r = 0x0A ∨ r = 0x0B ∨ r = 0x0C ∨ r = 0x0D ∨ r = 0x20 ∨ r = 0x85 ∨ r = 0xA0)
  else isExcludingLatin_White_Space r

end unicode

/-! ## strings -/

namespace strings

open utf8 unicode

/-- The table `asciiSpace [256]uint8` of package `strings`. -/
def asciiSpace (c : Byte) : Nat :=
  if c.val = 0x09 ∨ c.val = 0x0A ∨ c.val = 0x0B ∨ c.val = 0x0C ∨ c.val = 0x0D ∨ c.val = 0x20
  then 1 else 0

/-- The loop `for i, r := range s` of Go `strings.indexFunc`, at byte index `i`
with `s` the rest of the string; `none` stands for the result `-1`. -/
def indexFunc.loop (f : Nat → Bool) (truth : Bool) : Nat → Nat → GoString → Option Nat
  | 0, _, _ => none
  | fuel + 1, i, s =>
    if s.length = 0 then none else
    let (r, size) := DecodeRuneInString s
    if f r == truth then some i
    else indexFunc.loop f truth fuel (i + size) (s.drop size)

/-- Go `strings.indexFunc`. -/
def indexFunc (s : GoString) (f : Nat → Bool) (truth : Bool) : Option Nat :=
  indexFunc.loop f truth s.length 0 s

/-- The loop `for i := len(s); i > 0;` of Go `strings.lastIndexFunc`. -/
def lastIndexFunc.loop (s : GoString) (f : Nat → Bool) (truth : Bool) : Nat → Nat → Option Nat
  | 0, _ => none
  | fuel + 1, i =>
    if i > 0 then
      let (r, size) := DecodeLastRuneInString (s.take i)
      let i := i - size
      if f r == truth then some i
      else lastIndexFunc.loop s f truth fuel i
    else none

/-- Go `strings.lastIndexFunc`; `none` stands for the result `-1`. -/
def lastIndexFunc (s : GoString) (f : Nat → Bool) (truth : Bool) : Option Nat :=
  lastIndexFunc.loop s f truth s.length s.length

/-- Go `strings.TrimLeftFunc`. -/
def TrimLeftFunc (s : GoString) (f : Nat → Bool) : GoString :=
  match indexFunc s f false with
  | none => []
  | some i => s.drop i

/-- Go `strings.TrimRightFunc`. -/
def TrimRightFunc (s : GoString) (f : Nat → Bool) : GoString :=
  match lastIndexFunc s f false with
  | some i =>
    if (s.getD i 0).val ≥ RuneSelf then s.take (i + (DecodeRuneInString (s.drop i)).2)
    else s.take (i + 1)
  | none => s.take 0

/-- Go `strings.TrimFunc`. -/
def TrimFunc (s : GoString) (f : Nat → Bool) : GoString :=
  TrimRightFunc (TrimLeftFunc s f) f

/-- The second loop of Go `strings.TrimSpace`, `for ; stop > start; stop--`,
over the reversal of `s[start:stop]`. -/
def TrimSpace.loop2 : List Byte → GoString
  | [] => []
  | c :: rest =>
    if c.val ≥ RuneSelf then TrimRightFunc (c :: rest).reverse IsSpace
    else if asciiSpace c = 0 then (c :: rest).reverse
    else TrimSpace.loop2 rest

/-- The first loop of Go `strings.TrimSpace`, `for ; start < len(s); start++`,
over `s[start:]`, followed by the rest of the function. -/
def TrimSpace.loop1 : GoString → GoString
  | [] => TrimSpace.loop2 []
  | c :: rest =>
    if c.val ≥ RuneSelf then TrimFunc (c :: rest) IsSpace
    else if asciiSpace c = 0 then TrimSpace.loop2 (c :: rest).reverse
    else TrimSpace.loop1 rest

/-- Go `strings.TrimSpace`: `s` with all leading and trailing white space
removed, as defined by Unicode. -/
def TrimSpace (s : GoString) : GoString := TrimSpace.loop1 s

/-- Go `strings.HasPrefix`: `len(s) >= len(prefix) && s[:len(prefix)] == prefix`. -/
def HasPrefix (s pre : GoString) : Bool :=
  decide (s.length ≥ pre.length) && decide (s.take pre.length = pre)

/-- Go `strings.Index`: the index of the first instance of `sep` in `s`
at or after offset `i`, as an offset into `s`. -/
def Index.loop (sep : GoString) : Nat → GoString → Option Nat
  | i, [] => if sep = [] then some i else none
  | i, c :: t => if HasPrefix (c :: t) sep then some i else Index.loop sep (i + 1) t

def Index (s sep : GoString) : Option Nat := Index.loop sep 0 s

/-- The loop of Go `strings.genSplit` with `sepSave = 0`, `n = -1`. -/
def Split.loop (sep : GoString) : Nat → GoString → List GoString
  | 0, s => [s]
  | fuel + 1, s =>
    match Index s sep with
    | none => [s]
    | some m => s.take m :: Split.loop sep fuel (s.drop (m + sep.length))

/-- Go `strings.Split` for a non-empty separator (the call site passes "\n";
the empty separator, which splits after each rune, is not embedded). -/
def Split (s sep : GoString) : List GoString := Split.loop sep s.length s

end strings

/-! ## fmt -/

namespace fmt

/-- The bytes of a Go string literal (Go source text is UTF-8). -/
def lit (s : String) : GoString := s.toList.flatMap (fun c => utf8.EncodeRune c.toNat)

/-- The verb `%d` applied to a non-negative `int`. -/
def formatInt (n : Nat) : GoString := lit (toString n)

end fmt

/-! ## The collaborators of the helper -/

/-- The type `config.LLMConfig`, read through `self.c.UserConfig().LLM`. -/
structure LLMConfig where
  Enabled : Bool
  Command : GoString
deriving DecidableEq

/-- The two fields of `i18n.TranslationSet` the helper reads. -/
structure TranslationSet where
  LLMDisabled : GoString
  LLMCommandNotConfigured : GoString
deriving DecidableEq

/-- The non-nil `error` of `cmd.Output()`: either an `*exec.ExitError` (the
process ran and did not exit successfully; `Stderr` is the captured standard
error) or any other error (the process could not be started or waited for).
`text` is the result of the method `Error()`. -/
inductive ExecError where
  | ExitError (Stderr : GoString) (text : GoString)
  | Other (text : GoString)
deriving DecidableEq

/-- The method `Error()` of the error of `cmd.Output()`. -/
def ExecError.Error : ExecError → GoString
  | .ExitError _ text => text
  | .Other text => text

/-- What the outside world answers to one `exec.CommandContext(ctx, "sh",
"-c", command).Output()` under the 30-second context: the two results of
`Output()` and whether `ctx.Err() == context.DeadlineExceeded` afterwards. -/
structure ProcessOutcome where
  output : GoString
  err : Option ExecError
  deadlineExceeded : Bool
deriving DecidableEq

/-- The errors the helper returns, one constructor for each `fmt.Errorf` of
llm_helper.go, carrying the arguments of the format. -/
inductive LLMError where
  /-- Line 37: `fmt.Errorf("%s", self.c.Tr.LLMDisabled)`. -/
  | FeatureDisabled (text : GoString)
  /-- Line 40: `fmt.Errorf("%s", self.c.Tr.LLMCommandNotConfigured)`. -/
  | CommandNotConfigured (text : GoString)
  /-- Line 58: `fmt.Errorf("LLM command timed out after 30 seconds")`. -/
  | Timeout
  /-- Line 65: `fmt.Errorf("LLM command failed: %s", errMsg)`. -/
  | CommandFailed (errMsg : GoString)
  /-- Line 69: `fmt.Errorf("failed to execute LLM command: %v", err)`. -/
  | ExecutionFailed (errText : GoString)
  /-- Line 82: `fmt.Errorf("%s", message)`. -/
  | UpstreamReportedError (message : GoString)
  /-- Line 93: `fmt.Errorf("empty response from LLM command")`. -/
  | EmptyResponse
  /-- Line 98: `fmt.Errorf("generated message unreasonably large (%d bytes) - possible script error", len(message))`. -/
  | OversizedResponse (len : Nat)
  /-- Line 103: `fmt.Errorf("generated message contains invalid UTF-8 characters")`. -/
  | InvalidEncoding
deriving DecidableEq

/-- The text of the error, as `err.Error()` gives it. -/
def LLMError.Error : LLMError → GoString
  | .FeatureDisabled text => text
  | .CommandNotConfigured text => text
  | .Timeout => fmt.lit "LLM command timed out after 30 seconds"
  | .CommandFailed errMsg => fmt.lit "LLM command failed: " ++ errMsg
  | .ExecutionFailed errText => fmt.lit "failed to execute LLM command: " ++ errText
  | .UpstreamReportedError message => message
  | .EmptyResponse => fmt.lit "empty response from LLM command"
  | .OversizedResponse len =>
    fmt.lit "generated message unreasonably large (" ++ fmt.formatInt len ++
      fmt.lit " bytes) - possible script error"
  | .InvalidEncoding => fmt.lit "generated message contains invalid UTF-8 characters"

inductive LogLevel where
  | Debug
  | Warn
  | Error
deriving DecidableEq

/-- An argument of a format string. -/
inductive FmtArg where
  | str (s : GoString)
  | int (n : Nat)
deriving DecidableEq

/-- What the helper does to the outside world, in order. -/
inductive Effect where
  /-- A call `self.c.Log.Debugf`, `Warnf` or `Errorf`, with its format and arguments. -/
  | Log (level : LogLevel) (format : String) (args : List FmtArg)
  /-- The calls `exec.CommandContext(ctx, name, args...)` and `cmd.Output()` under a
  context with the given timeout in seconds. -/
  | Spawn (timeoutSeconds : Nat) (name : String) (args : List GoString)
deriving DecidableEq

/-- The two results of `GenerateCommitMessage` (`err = none` is the nil
error), and the trace of its effects. -/
structure Result where
  message : GoString
  err : Option LLMError
  trace : List Effect
deriving DecidableEq

/-! ## llm_helper.go -/

open utf8 unicode strings fmt

/-- The method `LLMHelper.validateGeneratedMessage` (llm_helper.go, lines 90-113):
the returned error (`none` is nil) and the lines it logs. -/
def validateGeneratedMessage (message : GoString) : Option LLMError × List Effect :=
  -- Check for empty message
  if message = [] then (some .EmptyResponse, []) else
  -- Prevent obviously corrupted output (100KB sanity check)
  if message.length > 100 * 1024 then (some (.OversizedResponse message.length), []) else
  -- Ensure valid UTF-8
  if !ValidString message then (some .InvalidEncoding, []) else
  -- Optional: Warn about format issues but don't fail
  let lines := Split message (lit "\n")
  if lines.length > 0 ∧ (lines.getD 0 []).length > 72 then
    (none, [.Log .Warn "Generated commit subject exceeds 72 characters: %d"
              [.int (lines.getD 0 []).length]])
  else (none, [])

/-- The method `LLMHelper.GenerateCommitMessage` (llm_helper.go, lines 33-87).
`cfg` is `self.c.UserConfig().LLM`, `tr` is `self.c.Tr`, and `run command` is
the outcome of running `sh -c command` under the 30-second context. -/
def GenerateCommitMessage (cfg : LLMConfig) (tr : TranslationSet)
    (run : GoString → ProcessOutcome) : Result :=
  -- Validate LLM configuration
  if !cfg.Enabled then ⟨[], some (.FeatureDisabled tr.LLMDisabled), []⟩ else
  if cfg.Command = [] then ⟨[], some (.CommandNotConfigured tr.LLMCommandNotConfigured), []⟩ else
  let t0 : List Effect :=
    [.Log .Debug "Executing LLM command: %s" [.str cfg.Command],
     .Spawn 30 "sh" [lit "-c", cfg.Command]]
  let p := run cfg.Command
  match p.err with
  | some err =>
    -- Check if it was a timeout
    if p.deadlineExceeded then ⟨[], some .Timeout, t0⟩ else
    -- Extract stderr if available for more informative error messages
    let failed : Result :=
      ⟨[], some (.ExecutionFailed err.Error),
        t0 ++ [.Log .Error "LLM command execution failed: %v" [.str err.Error]]⟩
    match err with
    | .ExitError stderr _ =>
      if stderr.length > 0 then
        let errMsg := TrimSpace stderr
        ⟨[], some (.CommandFailed errMsg),
          t0 ++ [.Log .Error "LLM command failed with stderr: %s" [.str errMsg]]⟩
      else failed
    | .Other _ => failed
  | none =>
    -- Clean the output
    let message := TrimSpace p.output
    -- Validate the generated message
    match validateGeneratedMessage message with
    | (some e, vlog) => ⟨[], some e, t0 ++ vlog⟩
    | (none, vlog) =>
      -- Handle error messages returned by the external script
      if HasPrefix message (lit "error:") then
        ⟨[], some (.UpstreamReportedError message), t0 ++ vlog⟩
      else
        ⟨message, none,
          t0 ++ vlog ++ [.Log .Debug "Successfully generated commit message: %d characters"
                          [.int message.length]]⟩

/-! ## Vocabulary of the statements -/

/-- A UTF-8 continuation byte, 0x80 to 0xBF. -/
def Cont (c : Byte) : Prop := 0x80 ≤ c.val ∧ c.val ≤ 0xBF

/-- A string made of chunks, each of which the decoder consumes whole and
reads as a rune satisfying `f`. -/
def RunOf (f : Nat → Bool) (s : GoString) : Prop :=
  ∃ es : List GoString, s = es.flatten ∧
    ∀ e ∈ es, e ≠ [] ∧ (DecodeRuneInString e).2 = e.length ∧ f (DecodeRuneInString e).1 = true

/-- The string is well-formed UTF-8: the encoding of a sequence of Unicode
scalar values. -/
def WellFormedUTF8 (s : GoString) : Prop :=
  ∃ rs : List Nat, (∀ r ∈ rs, ValidRune r = true) ∧ s = rs.flatMap EncodeRune

/-- The string is empty or consists only of white space: it is the UTF-8
encoding of a sequence of characters with Unicode's White Space property. -/
def IsWhitespace (s : GoString) : Prop :=
  ∃ rs : List Nat, (∀ r ∈ rs, IsSpace r = true) ∧ s = rs.flatMap EncodeRune

/-! ## Concrete inputs -/

/-- The translation set of the unit tests. -/
def testTr : TranslationSet :=
  ⟨lit "LLM commit generation is disabled in config", lit "LLM command is not configured"⟩

/-- An enabled configuration with the given command. -/
def enabledWith (command : String) : LLMConfig := ⟨true, lit command⟩

/-- An outside world in which every command prints `out` and exits with code zero. -/
def printing (out : GoString) : GoString → ProcessOutcome := fun _ => ⟨out, none, false⟩

/-- An outside world in which running a command returns the error `err`. -/
def failing (err : ExecError) (deadlineExceeded : Bool) : GoString → ProcessOutcome :=
  fun _ => ⟨[], some err, deadlineExceeded⟩

/-- A string of 100*1024+1 bytes, "a", the byte 0x80, "b" 102398 times, "c":
not valid UTF-8, no white space at either end. -/
def oversizedInvalid : GoString :=
  0x61 :: ((0x80 :: List.replicate 102398 0x62) ++ [0x63])

/-- The euro sign U+20AC (bytes E2 82 AC) twenty-five times: 25 characters, 75 bytes. -/
def euros25 : GoString := (List.replicate 25 ([0xE2, 0x82, 0xAC] : GoString)).flatten


/-! ## The decoder -/

set_option maxRecDepth 100000 in
theorem first_cases (c : Byte) :
    (c.val < 0x80 ∧ first c = 0xF0) ∨
    (0x80 ≤ c.val ∧ (c.val < 0xC2 ∨ 0xF4 < c.val) ∧ first c = 0xF1) ∨
    (0xC2 ≤ c.val ∧ c.val ≤ 0xDF ∧ first c = 0x02) ∨
    (c.val = 0xE0 ∧ first c = 0x13) ∨
    (0xE1 ≤ c.val ∧ c.val ≤ 0xEF ∧ c.val ≠ 0xED ∧ first c = 0x03) ∨
    (c.val = 0xED ∧ first c = 0x23) ∨
    (c.val = 0xF0 ∧ first c = 0x34) ∨
    (0xF1 ≤ c.val ∧ c.val ≤ 0xF3 ∧ first c = 0x04) ∨
    (c.val = 0xF4 ∧ first c = 0x44) := by
  revert c
  decide

/-- What the decoder reads off the table entry of a first byte: either the
entry is `as` (ASCII) or `xx` (invalid), or it gives a size from 2 to 4 and
an accept range inside the continuation bytes. -/
theorem lead_info (c : Byte) :
    (c.val < 0x80 ∧ first c = as_) ∨ (0x80 ≤ c.val ∧ first c = xx) ∨
    (0xC2 ≤ c.val ∧ first c < as_ ∧ 2 ≤ first c &&& 7 ∧ first c &&& 7 ≤ 4 ∧
      0x80 ≤ (acceptRanges (first c >>> 4)).1 ∧ (acceptRanges (first c >>> 4)).2 ≤ 0xBF) := by
  rcases first_cases c with h | h | ⟨h, _, hf⟩ | ⟨h, hf⟩ | ⟨h, _, _, hf⟩ | ⟨h, hf⟩ | ⟨h, hf⟩ |
    ⟨h, _, hf⟩ | ⟨h, hf⟩
  · exact Or.inl h
  · exact Or.inr (Or.inl ⟨h.1, h.2.2⟩)
  all_goals
    right; right
    rw [hf]
    exact ⟨by omega, by decide, by decide, by decide, by decide, by decide⟩

theorem decode_nil : DecodeRuneInString [] = (RuneError, 0) := by decide

theorem decode_as (c : Byte) (t : GoString) (h : first c = as_) :
    DecodeRuneInString (c :: t) = (c.val, 1) := by
  simp [DecodeRuneInString, h, as_]
  have : (4294967295 : Nat) = 2 ^ 32 - 1 := by norm_num
  rw [this, Nat.and_pow_two_sub_one_eq_mod]
  omega

theorem decode_xx (c : Byte) (t : GoString) (h : first c = xx) :
    DecodeRuneInString (c :: t) = (RuneError, 1) := by
  simp [DecodeRuneInString, h, as_, xx, RuneError]
  decide

theorem decode_lead (c0 : Byte) (t : GoString) (h : first c0 < as_) :
    DecodeRuneInString (c0 :: t) =
      if t.length + 1 < first c0 &&& 7 then (RuneError, 1) else
      if (t.getD 0 0).val < (acceptRanges (first c0 >>> 4)).1 ∨
          (acceptRanges (first c0 >>> 4)).2 < (t.getD 0 0).val then (RuneError, 1) else
      if first c0 &&& 7 ≤ 2 then (((c0.val &&& mask2) <<< 6) ||| ((t.getD 0 0).val &&& maskx), 2) else
      if (t.getD 1 0).val < locb ∨ hicb < (t.getD 1 0).val then (RuneError, 1) else
      if first c0 &&& 7 ≤ 3 then
        (((c0.val &&& mask3) <<< 12) ||| (((t.getD 0 0).val &&& maskx) <<< 6) |||
          ((t.getD 1 0).val &&& maskx), 3) else
      if (t.getD 2 0).val < locb ∨ hicb < (t.getD 2 0).val then (RuneError, 1) else
      (((c0.val &&& mask4) <<< 18) ||| (((t.getD 0 0).val &&& maskx) <<< 12) |||
        (((t.getD 1 0).val &&& maskx) <<< 6) ||| ((t.getD 2 0).val &&& maskx), 4) := by
  have h' : ¬ (as_ ≤ first c0) := by omega
  simp [DecodeRuneInString, h']

theorem decode_ascii (c : Byte) (t : GoString) (h : c.val < 0x80) :
    DecodeRuneInString (c :: t) = (c.val, 1) := by
  rcases lead_info c with h1 | h1 | h1
  · exact decode_as _ _ h1.2
  · omega
  · omega

theorem decode_size (s : GoString) (h : s ≠ []) :
    1 ≤ (DecodeRuneInString s).2 ∧ (DecodeRuneInString s).2 ≤ s.length := by
  rcases s with _ | ⟨c0, t⟩
  · exact absurd rfl h
  · rcases lead_info c0 with h1 | h1 | h1
    · simp [decode_as _ _ h1.2]
    · simp [decode_xx _ _ h1.2]
    · rw [decode_lead _ _ h1.2.1]
      obtain ⟨_, _, h2, h3, _, _⟩ := h1
      generalize first c0 &&& 7 = sz at *
      simp only [List.length_cons]
      split_ifs <;> simp <;> omega

/-- A byte of 0x80 or more followed by nothing or by a non-continuation byte
is an invalid encoding. -/
theorem decode_hi_tail (c : Byte) (rest : GoString) (h : 0x80 ≤ c.val)
    (hr : ∀ d t, rest = d :: t → ¬ Cont d) :
    DecodeRuneInString (c :: rest) = (RuneError, 1) := by
  rcases lead_info c with h1 | h1 | h1
  · omega
  · exact decode_xx _ _ h1.2
  · rw [decode_lead _ _ h1.2.1]
    obtain ⟨_, _, h2, h3, h4, h5⟩ := h1
    generalize first c &&& 7 = sz at *
    generalize (acceptRanges (first c >>> 4)).1 = lo at *
    generalize (acceptRanges (first c >>> 4)).2 = hi at *
    rcases rest with _ | ⟨d, t⟩
    · simp; omega
    · have := hr d t rfl
      simp only [Cont] at this
      simp
      intro _ _
      omega

/-- A decoded width of 1 on a byte of 0x80 or more is the error rune. -/
theorem decode_one_hi (c : Byte) (t : GoString) (h : 0x80 ≤ c.val)
    (h1 : (DecodeRuneInString (c :: t)).2 = 1) : DecodeRuneInString (c :: t) = (RuneError, 1) := by
  rcases lead_info c with h2 | h2 | h2
  · omega
  · exact decode_xx _ _ h2.2
  · rw [decode_lead _ _ h2.2.1] at h1 ⊢
    split_ifs at h1 ⊢ <;> simp_all

/-- A valid multi-byte encoding at the head: its shape, and that the decoder
reads nothing past it. -/
theorem decode_multi (c0 : Byte) (t : GoString) (h : 2 ≤ (DecodeRuneInString (c0 :: t)).2) :
    0xC2 ≤ c0.val ∧ ∃ e t', t = e ++ t' ∧ e.length + 1 = (DecodeRuneInString (c0 :: t)).2 ∧
      (∀ c ∈ e, Cont c) ∧
      ∀ rest, DecodeRuneInString (c0 :: (e ++ rest)) = DecodeRuneInString (c0 :: t) := by
  rcases lead_info c0 with h1 | h1 | h1
  · rw [decode_as _ _ h1.2] at h; simp at h
  · rw [decode_xx _ _ h1.2] at h; simp at h
  · refine ⟨h1.1, ?_⟩
    obtain ⟨_, hlt, h2, h3, h4, h5⟩ := h1
    have hl : ∀ u, DecodeRuneInString (c0 :: u) = _ := fun u => decode_lead c0 u hlt
    have key := hl t
    generalize first c0 &&& 7 = sz at *
    generalize (acceptRanges (first c0 >>> 4)).1 = lo at *
    generalize (acceptRanges (first c0 >>> 4)).2 = hi at *
    simp only [locb, hicb] at *
    split_ifs at key with k1 k2 k3 k4 k5 k6
    · rw [key] at h; simp at h
    · rw [key] at h; simp at h
    · rw [key]
      rcases t with _ | ⟨c1, t⟩
      · simp at k1; omega
      · refine ⟨[c1], t, rfl, rfl, ?_, ?_⟩
        · simp [Cont] at k2 ⊢; omega
        · intro rest
          rw [hl]
          simp at k2 ⊢
          rw [if_neg (by omega), if_neg (by omega), if_pos k3]
    · rw [key] at h; simp at h
    · rw [key]
      rcases t with _ | ⟨c1, _ | ⟨c2, t⟩⟩
      · simp at k1; omega
      · simp at k1; omega
      · refine ⟨[c1, c2], t, rfl, rfl, ?_, ?_⟩
        · simp [Cont] at k2 k4 ⊢; omega
        · intro rest
          rw [hl]
          simp at k2 k4 ⊢
          rw [if_neg (by omega), if_neg (by omega), if_neg k3, if_neg (by omega), if_pos k5]
    · rw [key] at h; simp at h
    · rw [key]
      rcases t with _ | ⟨c1, _ | ⟨c2, _ | ⟨c3, t⟩⟩⟩
      · simp at k1; omega
      · simp at k1; omega
      · simp at k1; omega
      · refine ⟨[c1, c2, c3], t, rfl, rfl, ?_, ?_⟩
        · simp [Cont] at k2 k4 k6 ⊢; omega
        · intro rest
          rw [hl]
          simp at k2 k4 k6 ⊢
          rw [if_neg (by omega), if_neg (by omega), if_neg k3, if_neg (by omega), if_neg k5,
            if_neg (by omega)]

/-! ## The backward decoder -/

theorem scan_le (s : GoString) (lim : Int) (fuel : Nat) (start : Int) :
    DecodeLastRuneInString.scan s lim fuel start ≤ start := by
  induction fuel generalizing start with
  | zero => simp [DecodeLastRuneInString.scan]
  | succ n ih =>
    simp only [DecodeLastRuneInString.scan]
    split_ifs
    · exact le_refl _
    · have := ih (start - 1); omega
    · exact le_refl _

theorem drop_length_sub_one (s : GoString) (h : s ≠ []) :
    s.drop (s.length - 1) = [s.getD (s.length - 1) 0] := by
  induction s with
  | nil => exact absurd rfl h
  | cons a t ih =>
    rcases t with _ | ⟨b, t⟩
    · simp
    · have := ih (by simp)
      simp at this ⊢
      exact this

/-- The backward decoder returns what the forward decoder reads on the last
`size` bytes, and `size` is at least 1. -/
theorem decodeLast_spec (s : GoString) (h : s ≠ []) :
    1 ≤ (DecodeLastRuneInString s).2 ∧ (DecodeLastRuneInString s).2 ≤ s.length ∧
    DecodeRuneInString (s.drop (s.length - (DecodeLastRuneInString s).2)) =
      DecodeLastRuneInString s := by
  have hlen : 0 < s.length := List.length_pos.mpr h
  have hne : ¬ ((s.length : Int) = 0) := by omega
  have hlast := drop_length_sub_one s h
  have htn : ((s.length : Int) - 1).toNat = s.length - 1 := by omega
  unfold DecodeLastRuneInString
  simp only [hne, if_false, htn]
  by_cases hr : (s.getD (s.length - 1) 0).val < RuneSelf
  · simp only [hr, if_true]
    refine ⟨le_refl _, hlen, ?_⟩
    rw [hlast]
    exact decode_ascii _ _ hr
  · simp only [hr, if_false]
    have hbad : DecodeRuneInString (s.drop (s.length - 1)) = (RuneError, 1) := by
      rw [hlast]
      exact decode_hi_tail _ _ (by simp only [RuneSelf] at hr; omega) (by simp)
    generalize hst : DecodeLastRuneInString.scan s _ _ _ = st
    have hle : st ≤ (s.length : Int) - 1 - 1 := by rw [← hst]; exact scan_le _ _ _ _
    generalize hst' : (if st < 0 then 0 else st) = st'
    have hst0 : 0 ≤ st' ∧ st' < s.length := by
      rw [← hst']; split_ifs <;> omega
    have hsz := decode_size (s.drop st'.toNat) (by
      intro hnil
      have := congrArg List.length hnil
      simp at this
      omega)
    rcases hd : DecodeRuneInString (s.drop st'.toNat) with ⟨r, size⟩
    rw [hd] at hsz
    simp only at hsz ⊢
    split_ifs with hc
    · exact ⟨le_refl _, hlen, hbad⟩
    · simp only [not_not] at hc
      refine ⟨hsz.1, by omega, ?_⟩
      have : s.length - size = st'.toNat := by omega
      rw [this, hd]

/-! ## Chunks: what one decoding step consumes -/

/-- A chunk (a string the decoder consumes whole) followed by nothing or by a
non-continuation byte decodes as the chunk alone. -/
theorem decode_append_chunk (e rest : GoString) (he : e ≠ [])
    (h : (DecodeRuneInString e).2 = e.length) (hr : ∀ d t, rest = d :: t → ¬ Cont d) :
    DecodeRuneInString (e ++ rest) = DecodeRuneInString e := by
  rcases e with _ | ⟨c0, t⟩
  · exact absurd rfl he
  · by_cases hc : c0.val < 0x80
    · rw [List.cons_append, decode_ascii _ _ hc, decode_ascii _ _ hc]
    · by_cases h2 : 2 ≤ (DecodeRuneInString (c0 :: t)).2
      · obtain ⟨_, e', t', ht, hlen, _, hrest⟩ := decode_multi c0 t h2
        have : t' = [] := by
          have := congrArg List.length ht
          simp at this h
          apply List.eq_nil_of_length_eq_zero
          omega
        subst this
        simp at ht
        subst ht
        exact hrest rest
      · have h1 : t = [] := by
          simp at h
          apply List.eq_nil_of_length_eq_zero
          omega
        subst h1
        rw [List.singleton_append, decode_hi_tail c0 rest (by omega) hr,
          decode_hi_tail c0 [] (by omega) (by simp)]

/-- A rune other than the error rune is decoded from a valid encoding, which
does not start with a continuation byte. -/
theorem head_not_cont (c : Byte) (t : GoString)
    (h : (DecodeRuneInString (c :: t)).1 ≠ RuneError) : ¬ Cont c := by
  intro hc
  simp only [Cont] at hc
  rcases lead_info c with h1 | h1 | h1
  · omega
  · rw [decode_xx _ _ h1.2] at h; exact h rfl
  · omega

/-- A rune other than the error rune is decoded from its own bytes only. -/
theorem decode_take_append (s rest : GoString) (h : (DecodeRuneInString s).1 ≠ RuneError) :
    DecodeRuneInString (s.take (DecodeRuneInString s).2 ++ rest) = DecodeRuneInString s := by
  rcases s with _ | ⟨c0, t⟩
  · rw [decode_nil] at h; exact absurd rfl h
  · by_cases hc : c0.val < 0x80
    · rw [decode_ascii _ _ hc]
      simp
      exact decode_ascii _ _ hc
    · by_cases h2 : 2 ≤ (DecodeRuneInString (c0 :: t)).2
      · obtain ⟨_, e', t', ht, hlen, _, hrest⟩ := decode_multi c0 t h2
        rw [← hlen]
        subst ht
        simp
        exact hrest rest
      · have hs := decode_size (c0 :: t) (by simp)
        have := decode_one_hi c0 t (by omega) (by omega)
        rw [this] at h
        exact absurd rfl h

/-! ## strings.indexFunc and strings.TrimLeftFunc -/

theorem indexFunc_loop_offset (f : Nat → Bool) (truth : Bool) (fuel i : Nat) (s : GoString) :
    indexFunc.loop f truth fuel i s = (indexFunc.loop f truth fuel 0 s).map (· + i) := by
  induction fuel generalizing i s with
  | zero => simp [indexFunc.loop]
  | succ n ih =>
    simp only [indexFunc.loop]
    split_ifs
    · simp
    · simp
    · rw [ih (i + _), ih (0 + _)]
      simp [Option.map_map, Function.comp_def]
      congr 1
      funext x
      omega

theorem indexFunc_loop_fuel (f : Nat → Bool) (truth : Bool) (fuel i : Nat) (s : GoString)
    (h : s.length ≤ fuel) :
    indexFunc.loop f truth fuel i s = indexFunc.loop f truth s.length i s := by
  induction fuel using Nat.strong_induction_on generalizing i s with
  | _ fuel ih =>
    rcases s with _ | ⟨c, t⟩
    · cases fuel <;> simp [indexFunc.loop]
    · obtain ⟨n, rfl⟩ : ∃ n, fuel = n + 1 := ⟨fuel - 1, by simp at h; omega⟩
      have hs := decode_size (c :: t) (by simp)
      simp only [List.length_cons] at h hs ⊢
      simp only [indexFunc.loop]
      simp only [List.length_cons, Nat.add_one_ne_zero, if_false]
      split_ifs
      · rfl
      · rw [ih n (by omega) _ _ (by simp; omega), ih t.length (by omega) _ _ (by simp; omega)]

theorem TrimLeftFunc_nil (f : Nat → Bool) : TrimLeftFunc [] f = [] := by
  simp [TrimLeftFunc, indexFunc, indexFunc.loop]

theorem TrimLeftFunc_stop (f : Nat → Bool) (s : GoString) (hs : s ≠ [])
    (h : f (DecodeRuneInString s).1 = false) : TrimLeftFunc s f = s := by
  obtain ⟨n, hn⟩ : ∃ n, s.length = n + 1 := ⟨s.length - 1, by
    have := List.length_pos.mpr hs; omega⟩
  simp [TrimLeftFunc, indexFunc, hn, indexFunc.loop, h]

theorem TrimLeftFunc_step (f : Nat → Bool) (s : GoString) (hs : s ≠ [])
    (h : f (DecodeRuneInString s).1 = true) :
    TrimLeftFunc s f = TrimLeftFunc (s.drop (DecodeRuneInString s).2) f := by
  obtain ⟨n, hn⟩ : ∃ n, s.length = n + 1 := ⟨s.length - 1, by
    have := List.length_pos.mpr hs; omega⟩
  have hsz := decode_size s hs
  simp only [TrimLeftFunc, indexFunc, hn, indexFunc.loop]
  simp only [Nat.add_one_ne_zero, if_false, h, Nat.zero_add]
  rw [indexFunc_loop_offset, indexFunc_loop_fuel _ _ n _ _ (by simp; omega)]
  simp only [Bool.true_eq_false, Bool.false_eq_true, if_false, beq_iff_eq]
  cases indexFunc.loop f false (List.drop (DecodeRuneInString s).2 s).length 0
      (List.drop (DecodeRuneInString s).2 s) with
  | none => simp
  | some k => simp [Nat.add_comm]

/-! ## strings.lastIndexFunc and strings.TrimRightFunc -/

theorem take_ne_nil (s : GoString) (i : Nat) (h0 : 0 < i) (hi : i ≤ s.length) : s.take i ≠ [] := by
  intro hnil
  have := congrArg List.length hnil
  rw [List.length_take, List.length_nil] at this
  omega

theorem lastIndexFunc_loop_fuel (s : GoString) (f : Nat → Bool) (truth : Bool) (fuel i : Nat)
    (hi : i ≤ s.length) (h : i ≤ fuel) :
    lastIndexFunc.loop s f truth fuel i = lastIndexFunc.loop s f truth i i := by
  induction i using Nat.strong_induction_on generalizing fuel with
  | _ i ih =>
    rcases i with _ | i
    · cases fuel <;> simp [lastIndexFunc.loop]
    · obtain ⟨n, rfl⟩ : ∃ n, fuel = n + 1 := ⟨fuel - 1, by omega⟩
      have hne : s.take (i + 1) ≠ [] := take_ne_nil s _ (by omega) hi
      have hs := decodeLast_spec (s.take (i + 1)) hne
      simp only [List.length_take, Nat.min_eq_left hi] at hs
      simp only [lastIndexFunc.loop]
      simp only [Nat.zero_lt_succ, if_true]
      generalize (DecodeLastRuneInString (s.take (i + 1))).2 = size at *
      split_ifs
      · rfl
      · rw [ih (i + 1 - size) (by omega) n (by omega) (by omega),
          ih (i + 1 - size) (by omega) i (by omega) (by omega)]

theorem lastIndexFunc_loop_take (s : GoString) (f : Nat → Bool) (truth : Bool) (fuel i j : Nat)
    (hij : i ≤ j) :
    lastIndexFunc.loop (s.take j) f truth fuel i = lastIndexFunc.loop s f truth fuel i := by
  induction fuel generalizing i with
  | zero => simp [lastIndexFunc.loop]
  | succ n ih =>
    simp only [lastIndexFunc.loop]
    rw [List.take_take, Nat.min_eq_left hij]
    split_ifs
    · rfl
    · exact ih _ (by omega)
    · rfl

theorem TrimRightFunc_nil (f : Nat → Bool) : TrimRightFunc [] f = [] := by
  simp [TrimRightFunc, lastIndexFunc, lastIndexFunc.loop]

/-- The last step of `TrimRightFunc`: from the index of the last rune that
stays, the end of that rune is found again by decoding forward, provided what
follows it does not start with a continuation byte. -/
theorem trimRight_finish (s : GoString) (i : Nat) (hi0 : 0 < i) (hi : i ≤ s.length)
    (hr : ∀ d t, s.drop i = d :: t → ¬ Cont d) :
    (if (s.getD (i - (DecodeLastRuneInString (s.take i)).2) 0).val ≥ RuneSelf then
        s.take (i - (DecodeLastRuneInString (s.take i)).2 +
          (DecodeRuneInString (s.drop (i - (DecodeLastRuneInString (s.take i)).2))).2)
      else s.take (i - (DecodeLastRuneInString (s.take i)).2 + 1)) = s.take i := by
  have hne : s.take i ≠ [] := take_ne_nil s i hi0 hi
  obtain ⟨h1, h2, h3⟩ := decodeLast_spec (s.take i) hne
  simp only [List.length_take, Nat.min_eq_left hi] at h2 h3
  generalize hsz : (DecodeLastRuneInString (s.take i)).2 = size at *
  have hk : i - size ≤ i := by omega
  -- the chunk and what follows it
  have hsplit : s.drop (i - size) = (s.take i).drop (i - size) ++ s.drop i := by
    conv_lhs => rw [← List.take_append_drop i s]
    rw [List.drop_append_of_le_length (by simp; omega)]
  have helen : ((s.take i).drop (i - size)).length = size := by simp; omega
  have hene : (s.take i).drop (i - size) ≠ [] := by
    intro hnil
    have := congrArg List.length hnil
    rw [helen] at this
    simp at this
    omega
  have hdec : DecodeRuneInString (s.drop (i - size)) =
      DecodeRuneInString ((s.take i).drop (i - size)) := by
    rw [hsplit]
    exact decode_append_chunk _ _ hene (by rw [h3, hsz, helen]) hr
  have hw : (DecodeRuneInString (s.drop (i - size))).2 = size := by
    rw [hdec, h3, hsz]
  split_ifs with hc
  · rw [hw]
    congr 1
    omega
  · -- an ASCII byte is a chunk of width 1
    have hsize : size = 1 := by
      rcases hd : s.drop (i - size) with _ | ⟨c, t⟩
      · rw [hd] at hsplit
        have := congrArg List.length hsplit
        simp at this
        omega
      · have hget : s.getD (i - size) 0 = c := by
          have := congrArg (fun l => l.getD 0 0) hd
          simpa using this
        rw [hget] at hc
        rw [hd, decode_ascii c t (by simp only [RuneSelf] at hc; omega)] at hw
        exact hw.symm
    congr 1
    omega

theorem TrimRightFunc_stop (f : Nat → Bool) (s : GoString) (hs : s ≠ [])
    (h : f (DecodeLastRuneInString s).1 = false) : TrimRightFunc s f = s := by
  obtain ⟨n, hn⟩ : ∃ n, s.length = n + 1 := ⟨s.length - 1, by
    have := List.length_pos.mpr hs; omega⟩
  have hfin := trimRight_finish s s.length (by omega) (le_refl _) (by simp)
  simp only [List.take_length] at hfin
  simp only [TrimRightFunc, lastIndexFunc]
  rw [hn] at hfin ⊢
  simp only [lastIndexFunc.loop]
  rw [← hn, List.take_length]
  simp only [hn, Nat.zero_lt_succ, if_true, h, beq_self_eq_true]
  exact hfin

/-- The loop of `lastIndexFunc` on `s` from index `i`, finished as in
`TrimRightFunc`, is `TrimRightFunc` of `s[:i]`. -/
theorem trimRight_loop (f : Nat → Bool) (hf : f RuneError = false) (fuel : Nat) :
    ∀ (s : GoString) (i : Nat), i ≤ fuel → i ≤ s.length →
      (∀ d t, s.drop i = d :: t → ¬ Cont d) →
      (match lastIndexFunc.loop s f false fuel i with
        | some k =>
          if (s.getD k 0).val ≥ RuneSelf then s.take (k + (DecodeRuneInString (s.drop k)).2)
          else s.take (k + 1)
        | none => s.take 0) = TrimRightFunc (s.take i) f := by
  induction fuel with
  | zero =>
    intro s i hi _ _
    have : i = 0 := by omega
    subst this
    simp [lastIndexFunc.loop, TrimRightFunc_nil]
  | succ n ih =>
    intro s i hin hi hr
    rcases Nat.eq_zero_or_pos i with h0 | hpos
    · subst h0
      simp [lastIndexFunc.loop, TrimRightFunc_nil]
    · have hne : s.take i ≠ [] := take_ne_nil s i hpos hi
      obtain ⟨h1, h2, h3⟩ := decodeLast_spec (s.take i) hne
      simp only [List.length_take, Nat.min_eq_left hi] at h2 h3
      simp only [lastIndexFunc.loop, hpos, if_true]
      by_cases hsp : f (DecodeLastRuneInString (s.take i)).1 = false
      · simp only [hsp, beq_self_eq_true, if_true]
        rw [TrimRightFunc_stop f _ hne hsp]
        exact trimRight_finish s i hpos hi hr
      · have hsp' : f (DecodeLastRuneInString (s.take i)).1 = true := by
          simpa using hsp
        simp only [hsp', Bool.true_eq_false, Bool.false_eq_true, if_false, beq_iff_eq]
        generalize hsz : (DecodeLastRuneInString (s.take i)).2 = size at *
        -- what follows index i - size is the chunk of a rune that f accepts
        have hr' : ∀ d t, s.drop (i - size) = d :: t → ¬ Cont d := by
          intro d t hd
          have hsplit : s.drop (i - size) = (s.take i).drop (i - size) ++ s.drop i := by
            conv_lhs => rw [← List.take_append_drop i s]
            rw [List.drop_append_of_le_length (by simp; omega)]
          rcases he : (s.take i).drop (i - size) with _ | ⟨c, t'⟩
          · have := congrArg List.length he
            simp at this
            omega
          · rw [he] at hsplit h3
            rw [hsplit] at hd
            simp at hd
            rw [← hd.1]
            apply head_not_cont c t'
            rw [h3]
            intro hE
            rw [hE, hf] at hsp'
            exact absurd hsp' (by simp)
        rw [ih s (i - size) (by omega) (by omega) hr']
        -- the same loop on s[:i]
        have hT : TrimRightFunc (s.take i) f = TrimRightFunc ((s.take i).take (i - size)) f := by
          have hlen : (s.take i).length = i := by simp; omega
          obtain ⟨m, hm⟩ : ∃ m, i = m + 1 := ⟨i - 1, by omega⟩
          have hr'' : ∀ d t, (s.take i).drop (i - size) = d :: t → ¬ Cont d := by
            intro d t hd
            apply head_not_cont d t
            rw [← hd, h3]
            intro hE
            rw [hE, hf] at hsp'
            exact absurd hsp' (by simp)
          rw [← ih (s.take i) (i - size) (by omega) (by rw [hlen]; omega) hr'']
          conv_lhs => rw [TrimRightFunc, lastIndexFunc, hlen]
          rw [hm]
          simp only [lastIndexFunc.loop, Nat.zero_lt_succ, if_true]
          rw [← hm, List.take_take, Nat.min_self, hsz]
          simp only [hsp', Bool.true_eq_false, Bool.false_eq_true, if_false, beq_iff_eq]
          rw [lastIndexFunc_loop_fuel _ _ _ m _ (by rw [hlen]; omega) (by omega),
            lastIndexFunc_loop_fuel _ _ _ n _ (by rw [hlen]; omega) (by omega)]
          try rfl
        rw [hT, List.take_take, Nat.min_eq_left (by omega)]

theorem TrimRightFunc_step (f : Nat → Bool) (hf : f RuneError = false) (s : GoString)
    (hs : s ≠ []) (h : f (DecodeLastRuneInString s).1 = true) :
    TrimRightFunc s f = TrimRightFunc (s.take (s.length - (DecodeLastRuneInString s).2)) f := by
  obtain ⟨n, hn⟩ : ∃ n, s.length = n + 1 := ⟨s.length - 1, by
    have := List.length_pos.mpr hs; omega⟩
  obtain ⟨h1, h2, h3⟩ := decodeLast_spec s hs
  have hr : ∀ d t, s.drop (s.length - (DecodeLastRuneInString s).2) = d :: t → ¬ Cont d := by
    intro d t hd
    apply head_not_cont d t
    rw [← hd, h3]
    intro hE
    rw [hE, hf] at h
    exact absurd h (by simp)
  rw [← trimRight_loop f hf n s _ (by omega) (by omega) hr]
  conv_lhs => rw [TrimRightFunc, lastIndexFunc, hn]
  simp only [lastIndexFunc.loop, Nat.zero_lt_succ, if_true]
  rw [← hn, List.take_length]
  simp only [h, Bool.true_eq_false, Bool.false_eq_true, if_false, beq_iff_eq]
  try rfl

/-! ## strings.TrimSpace -/

theorem isSpace_runeError : IsSpace RuneError = false := by decide

theorem asciiSpace_iff (c : Byte) (h : c.val < 0x80) :
    asciiSpace c = 0 ↔ IsSpace c.val = false := by
  have h1 : c.val ≤ MaxLatin1 := by simp only [MaxLatin1]; omega
  simp only [asciiSpace, IsSpace, h1, if_true]
  have h2 : c.val ≠ 0x85 := by omega
  have h3 : c.val ≠ 0xA0 := by omega
  simp only [h2, h3, or_false]
  split_ifs with hc <;> simp [hc]

theorem decodeLast_ascii (p : GoString) (c : Byte) (h : c.val < 0x80) :
    DecodeLastRuneInString (p ++ [c]) = (c.val, 1) := by
  have hlen : ((p ++ [c]).length : Int) ≠ 0 := by simp; omega
  have htn : (((p ++ [c]).length : Int) - 1).toNat = p.length := by simp
  have hget : (p ++ [c]).getD p.length 0 = c := by simp
  unfold DecodeLastRuneInString
  simp only [hlen, if_false, htn, hget, RuneSelf, h, if_true]

theorem TrimSpace_loop2_eq (u : List Byte) :
    TrimSpace.loop2 u = TrimRightFunc u.reverse IsSpace := by
  induction u with
  | nil => simp [TrimSpace.loop2, TrimRightFunc_nil]
  | cons c rest ih =>
    simp only [TrimSpace.loop2]
    split_ifs with h1 h2
    · rfl
    · have hc : c.val < 0x80 := by simp only [RuneSelf] at h1; omega
      rw [TrimRightFunc_stop]
      · simp
      · rw [List.reverse_cons, decodeLast_ascii _ _ hc]
        exact (asciiSpace_iff c hc).mp h2
    · have hc : c.val < 0x80 := by simp only [RuneSelf] at h1; omega
      have hsp : IsSpace c.val = true := by
        by_contra hn
        exact h2 ((asciiSpace_iff c hc).mpr (by simpa using hn))
      have hstep := TrimRightFunc_step IsSpace isSpace_runeError (rest.reverse ++ [c]) (by simp)
        (by rw [decodeLast_ascii _ _ hc]; exact hsp)
      rw [decodeLast_ascii _ _ hc] at hstep
      rw [ih, List.reverse_cons, hstep]
      simp

/-- The ASCII fast path of `TrimSpace` agrees with the general path. -/
theorem TrimSpace_eq_TrimFunc (s : GoString) : TrimSpace s = TrimFunc s IsSpace := by
  unfold TrimSpace
  induction s with
  | nil => simp [TrimSpace.loop1, TrimSpace.loop2, TrimFunc, TrimLeftFunc_nil, TrimRightFunc_nil]
  | cons c rest ih =>
    simp only [TrimSpace.loop1]
    split_ifs with h1 h2
    · rfl
    · have hc : c.val < 0x80 := by simp only [RuneSelf] at h1; omega
      rw [TrimSpace_loop2_eq, List.reverse_reverse, TrimFunc, TrimLeftFunc_stop]
      · simp
      · rw [decode_ascii _ _ hc]
        exact (asciiSpace_iff c hc).mp h2
    · have hc : c.val < 0x80 := by simp only [RuneSelf] at h1; omega
      have hsp : IsSpace c.val = true := by
        by_contra hn
        exact h2 ((asciiSpace_iff c hc).mpr (by simpa using hn))
      have hstep := TrimLeftFunc_step IsSpace (c :: rest) (by simp)
        (by rw [decode_ascii _ _ hc]; exact hsp)
      rw [decode_ascii _ _ hc] at hstep
      rw [ih, TrimFunc, TrimFunc, hstep]
      simp

/-! ## utf8.ValidString -/

theorem validLoop_fuel (s : GoString) :
    ∀ fuel, s.length ≤ fuel → ValidString.loop fuel s = ValidString.loop s.length s := by
  generalize hn : s.length = n
  induction n using Nat.strong_induction_on generalizing s with
  | _ n ih =>
    intro fuel hfuel
    rcases s with _ | ⟨c, t⟩
    · subst hn; cases fuel <;> simp [ValidString.loop]
    · obtain ⟨m, rfl⟩ : ∃ m, fuel = m + 1 := ⟨fuel - 1, by simp at hn; omega⟩
      simp only [List.length_cons] at hn
      subst hn
      have key : ∀ k, ValidString.loop m (t.drop k) = ValidString.loop t.length (t.drop k) := by
        intro k
        have hl : (t.drop k).length ≤ t.length := by simp
        rw [ih _ (by omega) (t.drop k) rfl m (by omega),
          ih _ (by omega) (t.drop k) rfl t.length hl]
      have key0 := key 0
      simp only [List.drop_zero] at key0
      simp only [ValidString.loop, key, key0]

/-- One step of `ValidString`: the string is valid when a valid encoding is
at its head and the rest after it is valid. -/
theorem valid_cons (c : Byte) (t : GoString) :
    ValidString (c :: t) =
      (decide (c.val < 0x80 ∨ 2 ≤ (DecodeRuneInString (c :: t)).2) &&
        ValidString ((c :: t).drop (DecodeRuneInString (c :: t)).2)) := by
  have key : ∀ k, ValidString.loop t.length (t.drop k) = ValidString (t.drop k) := by
    intro k
    exact validLoop_fuel _ _ (by simp)
  have key0 := key 0
  simp only [List.drop_zero] at key0
  conv_lhs => rw [ValidString, List.length_cons, ValidString.loop]
  rcases lead_info c with h1 | h1 | h1
  · rw [decode_as _ _ h1.2]
    simp [RuneSelf, h1.1, key0]
  · rw [decode_xx _ _ h1.2]
    have : ¬ c.val < RuneSelf := by simp only [RuneSelf]; omega
    have h2 : ¬ c.val < 128 := by omega
    simp [this, h1.2, h2]
  · have hc : ¬ c.val < RuneSelf := by simp only [RuneSelf]; omega
    have hc2 : ¬ c.val < 128 := by omega
    have hxx : first c ≠ xx := by
      have := h1.2.1
      simp only [as_, xx] at this ⊢
      omega
    rw [decode_lead _ _ h1.2.1]
    obtain ⟨_, hlt, h2, h3, h4, h5⟩ := h1
    simp only [hc, hxx, if_false, hc2, false_or, key]
    generalize first c &&& 7 = sz at *
    generalize (acceptRanges (first c >>> 4)).1 = lo at *
    generalize (acceptRanges (first c >>> 4)).2 = hi at *
    simp only [List.length_cons, locb, hicb, gt_iff_lt]
    by_cases k1 : t.length + 1 < sz
    · simp only [k1, if_true]; simp
    · simp only [k1, if_false]
      by_cases k2 : (t.getD 0 0).val < lo ∨ hi < (t.getD 0 0).val
      · simp only [k2, if_true]; simp
      · simp only [k2, if_false]
        by_cases k3 : sz = 2
        · have k3' : sz ≤ 2 := by omega
          simp only [k3, k3', if_true]; simp
        · have k3' : ¬ sz ≤ 2 := by omega
          simp only [k3, k3', if_false]
          by_cases k4 : (t.getD 1 0).val < 128 ∨ 191 < (t.getD 1 0).val
          · simp only [k4, if_true]; simp
          · simp only [k4, if_false]
            by_cases k5 : sz = 3
            · have k5' : sz ≤ 3 := by omega
              simp only [k5, k5', if_true]; simp
            · have k5' : ¬ sz ≤ 3 := by omega
              have k6 : sz = 4 := by omega
              simp only [k5, k5', if_false]
              by_cases k7 : (t.getD 2 0).val < 128 ∨ 191 < (t.getD 2 0).val
              · simp only [k7, if_true]; simp
              · simp only [k7, if_false, k6]; simp

theorem valid_nil : ValidString [] = true := by decide

/-- Dropping a rune other than the error rune from the front keeps validity as it is. -/
theorem valid_drop_rune (s : GoString) (h : (DecodeRuneInString s).1 ≠ RuneError) :
    ValidString (s.drop (DecodeRuneInString s).2) = ValidString s := by
  rcases s with _ | ⟨c, t⟩
  · rw [decode_nil] at h; exact absurd rfl h
  · rw [valid_cons c t]
    have : c.val < 0x80 ∨ 2 ≤ (DecodeRuneInString (c :: t)).2 := by
      by_contra hn
      have hs := decode_size (c :: t) (by simp)
      have := decode_one_hi c t (by omega) (by omega)
      rw [this] at h
      exact h rfl
    simp [this]

/-- A valid string followed by any string is valid exactly when the second is. -/
theorem valid_append (p q : GoString) (hp : ValidString p = true) :
    ValidString (p ++ q) = ValidString q := by
  generalize hn : p.length = n
  induction n using Nat.strong_induction_on generalizing p with
  | _ n ih =>
    rcases p with _ | ⟨c, t⟩
    · simp
    · rw [valid_cons] at hp
      simp only [Bool.and_eq_true, decide_eq_true_eq] at hp
      obtain ⟨hgood, hrest⟩ := hp
      have hs := decode_size (c :: t) (by simp)
      have hdec : DecodeRuneInString ((c :: t) ++ q) = DecodeRuneInString (c :: t) := by
        rcases hgood with hc | h2
        · rw [List.cons_append, decode_ascii _ _ hc, decode_ascii _ _ hc]
        · obtain ⟨_, e, t', ht, hlen, _, hrest'⟩ := decode_multi c t h2
          subst ht
          have := hrest' (t' ++ q)
          simpa using this
      rw [List.cons_append, valid_cons, ← List.cons_append, hdec]
      have hg : decide (c.val < 0x80 ∨ 2 ≤ (DecodeRuneInString (c :: t)).2) = true := by
        simp [hgood]
      rw [hg, Bool.true_and, List.drop_append_of_le_length hs.2]
      subst hn
      exact ih _ (by simp; omega) _ hrest rfl

/-! ## What trimming removes and what it leaves -/

theorem runOf_nil (f : Nat → Bool) : RunOf f [] := ⟨[], by simp, by simp⟩

theorem runOf_cons (f : Nat → Bool) (e s : GoString) (he : e ≠ [])
    (h1 : (DecodeRuneInString e).2 = e.length) (h2 : f (DecodeRuneInString e).1 = true)
    (hs : RunOf f s) : RunOf f (e ++ s) := by
  obtain ⟨es, rfl, hes⟩ := hs
  refine ⟨e :: es, by simp, ?_⟩
  intro x hx
  rcases List.mem_cons.mp hx with rfl | hx
  · exact ⟨he, h1, h2⟩
  · exact hes x hx

theorem runOf_snoc (f : Nat → Bool) (e s : GoString) (he : e ≠ [])
    (h1 : (DecodeRuneInString e).2 = e.length) (h2 : f (DecodeRuneInString e).1 = true)
    (hs : RunOf f s) : RunOf f (s ++ e) := by
  obtain ⟨es, rfl, hes⟩ := hs
  refine ⟨es ++ [e], by simp, ?_⟩
  intro x hx
  rcases List.mem_append.mp hx with hx | hx
  · exact hes x hx
  · simp at hx; subst hx; exact ⟨he, h1, h2⟩

/-- The chunk at the head of a string decodes as the string does. -/
theorem decode_take (f : Nat → Bool) (hf : f RuneError = false) (s : GoString)
    (h : f (DecodeRuneInString s).1 = true) :
    DecodeRuneInString (s.take (DecodeRuneInString s).2) = DecodeRuneInString s := by
  have hne : (DecodeRuneInString s).1 ≠ RuneError := by
    intro hE; rw [hE, hf] at h; exact absurd h (by simp)
  have := decode_take_append s [] hne
  simpa using this

/-- The function `TrimLeftFunc` removes a run of runes satisfying `f`, and what is left is
empty or starts with a rune that does not satisfy `f`. -/
theorem TrimLeftFunc_spec (f : Nat → Bool) (hf : f RuneError = false) (s : GoString) :
    (∃ pre, s = pre ++ TrimLeftFunc s f ∧ RunOf f pre) ∧
    (TrimLeftFunc s f = [] ∨ f (DecodeRuneInString (TrimLeftFunc s f)).1 = false) := by
  generalize hn : s.length = n
  induction n using Nat.strong_induction_on generalizing s with
  | _ n ih =>
    by_cases hs : s = []
    · subst hs
      rw [TrimLeftFunc_nil]
      exact ⟨⟨[], by simp, runOf_nil f⟩, Or.inl rfl⟩
    · by_cases hsp : f (DecodeRuneInString s).1 = true
      · have hsz := decode_size s hs
        rw [TrimLeftFunc_step f s hs hsp]
        obtain ⟨⟨pre, hpre, hrun⟩, hlt⟩ :=
          ih _ (by subst hn; simp; omega) (s.drop (DecodeRuneInString s).2) rfl
        refine ⟨⟨s.take (DecodeRuneInString s).2 ++ pre, ?_, ?_⟩, hlt⟩
        · rw [List.append_assoc, ← hpre, List.take_append_drop]
        · apply runOf_cons f _ _ _ _ _ hrun
          · intro hnil
            have := congrArg List.length hnil
            rw [List.length_take, List.length_nil] at this
            omega
          · rw [decode_take f hf s hsp, List.length_take]
            omega
          · rw [decode_take f hf s hsp]; exact hsp
      · have hsp' : f (DecodeRuneInString s).1 = false := by simpa using hsp
        rw [TrimLeftFunc_stop f s hs hsp']
        exact ⟨⟨[], by simp, runOf_nil f⟩, Or.inr hsp'⟩

/-- The last chunk of a string, as the backward decoder sees it. -/
theorem decodeLast_chunk (s : GoString) (hs : s ≠ []) :
    s = s.take (s.length - (DecodeLastRuneInString s).2) ++
        s.drop (s.length - (DecodeLastRuneInString s).2) ∧
    s.drop (s.length - (DecodeLastRuneInString s).2) ≠ [] ∧
    (DecodeRuneInString (s.drop (s.length - (DecodeLastRuneInString s).2))).2 =
      (s.drop (s.length - (DecodeLastRuneInString s).2)).length ∧
    (DecodeRuneInString (s.drop (s.length - (DecodeLastRuneInString s).2))).1 =
      (DecodeLastRuneInString s).1 := by
  obtain ⟨h1, h2, h3⟩ := decodeLast_spec s hs
  refine ⟨(List.take_append_drop _ _).symm, ?_, ?_, ?_⟩
  · intro hnil
    have := congrArg List.length hnil
    rw [List.length_drop, List.length_nil] at this
    omega
  · rw [h3, List.length_drop]; omega
  · rw [h3]

/-- The function `TrimRightFunc` removes a run of runes satisfying `f`, and what is left is
empty or ends with a rune that does not satisfy `f`. -/
theorem TrimRightFunc_spec (f : Nat → Bool) (hf : f RuneError = false) (s : GoString) :
    (∃ post, s = TrimRightFunc s f ++ post ∧ RunOf f post) ∧
    (TrimRightFunc s f = [] ∨ f (DecodeLastRuneInString (TrimRightFunc s f)).1 = false) := by
  generalize hn : s.length = n
  induction n using Nat.strong_induction_on generalizing s with
  | _ n ih =>
    by_cases hs : s = []
    · subst hs
      rw [TrimRightFunc_nil]
      exact ⟨⟨[], by simp, runOf_nil f⟩, Or.inl rfl⟩
    · by_cases hsp : f (DecodeLastRuneInString s).1 = true
      · obtain ⟨h1, h2, _⟩ := decodeLast_spec s hs
        obtain ⟨c1, c2, c3, c4⟩ := decodeLast_chunk s hs
        rw [TrimRightFunc_step f hf s hs hsp]
        obtain ⟨⟨post, hpost, hrun⟩, hrt⟩ :=
          ih _ (by subst hn; rw [List.length_take]; omega)
            (s.take (s.length - (DecodeLastRuneInString s).2)) rfl
        refine ⟨⟨post ++ s.drop (s.length - (DecodeLastRuneInString s).2), ?_, ?_⟩, hrt⟩
        · rw [← List.append_assoc, ← hpost, List.take_append_drop]
        · exact runOf_snoc f _ _ c2 c3 (by rw [c4]; exact hsp) hrun
      · have hsp' : f (DecodeLastRuneInString s).1 = false := by simpa using hsp
        rw [TrimRightFunc_stop f s hs hsp']
        exact ⟨⟨[], by simp, runOf_nil f⟩, Or.inr hsp'⟩

/-- A string that starts with a rune not satisfying `f` still does so after a
chunk of a rune satisfying `f` is cut from its end. -/
theorem lt_of_append_chunk (f : Nat → Bool) (hf : f RuneError = false) (p e : GoString)
    (h : f (DecodeRuneInString (p ++ e)).1 = false) :
    f (DecodeRuneInString p).1 = false := by
  by_contra hn
  have hsp : f (DecodeRuneInString p).1 = true := by simpa using hn
  have hne : (DecodeRuneInString p).1 ≠ RuneError := by
    intro hE; rw [hE, hf] at hsp; exact absurd hsp (by simp)
  have := decode_take_append p (p.drop (DecodeRuneInString p).2 ++ e) hne
  rw [← List.append_assoc, List.take_append_drop] at this
  rw [this, hsp] at h
  exact absurd h (by simp)

/-- Trimming on the right keeps a left-trimmed string left-trimmed. -/
theorem TrimRightFunc_keeps_lt (f : Nat → Bool) (hf : f RuneError = false) (s : GoString)
    (h : s = [] ∨ f (DecodeRuneInString s).1 = false) :
    TrimRightFunc s f = [] ∨ f (DecodeRuneInString (TrimRightFunc s f)).1 = false := by
  generalize hn : s.length = n
  induction n using Nat.strong_induction_on generalizing s with
  | _ n ih =>
    by_cases hs : s = []
    · subst hs; rw [TrimRightFunc_nil]; exact Or.inl rfl
    · have h' := h.resolve_left hs
      by_cases hsp : f (DecodeLastRuneInString s).1 = true
      · obtain ⟨h1, h2, _⟩ := decodeLast_spec s hs
        rw [TrimRightFunc_step f hf s hs hsp]
        apply ih _ (by subst hn; rw [List.length_take]; omega) _ _ rfl
        by_cases hp : s.take (s.length - (DecodeLastRuneInString s).2) = []
        · exact Or.inl hp
        · right
          apply lt_of_append_chunk f hf _ (s.drop (s.length - (DecodeLastRuneInString s).2))
          rw [List.take_append_drop]
          exact h'
      · have hsp' : f (DecodeLastRuneInString s).1 = false := by simpa using hsp
        rw [TrimRightFunc_stop f s hs hsp']
        exact Or.inr h'

theorem TrimLeftFunc_of_lt (f : Nat → Bool) (s : GoString)
    (h : s = [] ∨ f (DecodeRuneInString s).1 = false) : TrimLeftFunc s f = s := by
  by_cases hs : s = []
  · subst hs; exact TrimLeftFunc_nil f
  · exact TrimLeftFunc_stop f s hs (h.resolve_left hs)

theorem TrimRightFunc_of_rt (f : Nat → Bool) (s : GoString)
    (h : s = [] ∨ f (DecodeLastRuneInString s).1 = false) : TrimRightFunc s f = s := by
  by_cases hs : s = []
  · subst hs; exact TrimRightFunc_nil f
  · exact TrimRightFunc_stop f s hs (h.resolve_left hs)

theorem TrimFunc_idem (f : Nat → Bool) (hf : f RuneError = false) (s : GoString) :
    TrimFunc (TrimFunc s f) f = TrimFunc s f := by
  unfold TrimFunc
  have hlt := TrimRightFunc_keeps_lt f hf _ (TrimLeftFunc_spec f hf s).2
  rw [TrimLeftFunc_of_lt f _ hlt]
  exact TrimRightFunc_of_rt f _ (TrimRightFunc_spec f hf _).2

/-- The function `strings.TrimSpace` is idempotent, on every byte string. -/
theorem TrimSpace_idem (s : GoString) : TrimSpace (TrimSpace s) = TrimSpace s := by
  rw [TrimSpace_eq_TrimFunc, TrimSpace_eq_TrimFunc]
  exact TrimFunc_idem IsSpace isSpace_runeError s

/-- A run of runes other than the error rune is valid UTF-8. -/
theorem valid_runOf (f : Nat → Bool) (hf : f RuneError = false) (s : GoString)
    (h : RunOf f s) : ValidString s = true := by
  obtain ⟨es, rfl, hes⟩ := h
  induction es with
  | nil => simp [valid_nil]
  | cons e es ih =>
    have he := hes e (List.mem_cons_self _ _)
    have hv : ValidString e = true := by
      have hne : (DecodeRuneInString e).1 ≠ RuneError := by
        intro hE; rw [hE, hf] at he; exact absurd he.2.2 (by simp)
      have := valid_drop_rune e hne
      rw [he.2.1, List.drop_length, valid_nil] at this
      exact this.symm
    rw [List.flatten_cons, valid_append _ _ hv]
    exact ih (fun x hx => hes x (List.mem_cons_of_mem _ hx))

/-- Trimming does not make an invalid string valid. -/
theorem valid_of_valid_TrimFunc (f : Nat → Bool) (hf : f RuneError = false) (s : GoString)
    (hv : ValidString (TrimFunc s f) = true) : ValidString s = true := by
  obtain ⟨pre, hpre, hrpre⟩ := (TrimLeftFunc_spec f hf s).1
  obtain ⟨post, hpost, hrpost⟩ := (TrimRightFunc_spec f hf (TrimLeftFunc s f)).1
  unfold TrimFunc at hv
  rw [hpre, valid_append _ _ (valid_runOf f hf _ hrpre), hpost, valid_append _ _ hv]
  exact valid_runOf f hf _ hrpost

theorem valid_of_valid_TrimSpace (s : GoString) (hv : ValidString (TrimSpace s) = true) :
    ValidString s = true := by
  rw [TrimSpace_eq_TrimFunc] at hv
  exact valid_of_valid_TrimFunc IsSpace isSpace_runeError s hv

/-! ## Encoding and decoding -/

theorem sz_class (c : Byte) (h : first c < as_) :
    (first c &&& 7 = 2 ∧ 0xC2 ≤ c.val ∧ c.val ≤ 0xDF ∧
      acceptRanges (first c >>> 4) = (0x80, 0xBF)) ∨
    (first c &&& 7 = 3 ∧ 0xE0 ≤ c.val ∧ c.val ≤ 0xEF ∧
      acceptRanges (first c >>> 4) =
        (if c.val = 0xE0 then 0xA0 else 0x80, if c.val = 0xED then 0x9F else 0xBF)) ∨
    (first c &&& 7 = 4 ∧ 0xF0 ≤ c.val ∧ c.val ≤ 0xF4 ∧
      acceptRanges (first c >>> 4) =
        (if c.val = 0xF0 then 0x90 else 0x80, if c.val = 0xF4 then 0x8F else 0xBF)) := by
  rcases first_cases c with ⟨_, hf⟩ | ⟨_, _, hf⟩ | ⟨h1, h2, hf⟩ | ⟨h1, hf⟩ | ⟨h1, h2, h3, hf⟩ |
    ⟨h1, hf⟩ | ⟨h1, hf⟩ | ⟨h1, h2, hf⟩ | ⟨h1, hf⟩
  · rw [hf] at h; simp [as_] at h
  · rw [hf] at h; simp [as_] at h
  · left; rw [hf]; exact ⟨by decide, h1, h2, by decide⟩
  · right; left; rw [hf]; refine ⟨by decide, by omega, by omega, ?_⟩
    simp [h1]; decide
  · right; left; rw [hf]; refine ⟨by decide, by omega, by omega, ?_⟩
    have e1 : c.val ≠ 0xE0 := by omega
    simp [e1, h3]; decide
  · right; left; rw [hf]; refine ⟨by decide, by omega, by omega, ?_⟩
    simp [h1]; decide
  · right; right; rw [hf]; refine ⟨by decide, by omega, by omega, ?_⟩
    simp [h1]; decide
  · right; right; rw [hf]; refine ⟨by decide, by omega, by omega, ?_⟩
    have e1 : c.val ≠ 0xF0 := by omega
    have e2 : c.val ≠ 0xF4 := by omega
    simp [e1, e2]; decide
  · right; right; rw [hf]; refine ⟨by decide, by omega, by omega, ?_⟩
    simp [h1]; decide

theorem or_add (i a b : Nat) (h : b < 2 ^ i) : 2 ^ i * a ||| b = 2 ^ i * a + b :=
  (Nat.mul_add_lt_is_or h a).symm

theorem bits2 (a b : Nat) :
    (a &&& 0x1F) <<< 6 ||| (b &&& 0x3F) = (a % 32) * 64 + b % 64 := by
  have h1 : a &&& 0x1F = a % 32 := Nat.and_pow_two_sub_one_eq_mod a 5
  have h2 : b &&& 0x3F = b % 64 := Nat.and_pow_two_sub_one_eq_mod b 6
  rw [h1, h2, Nat.shiftLeft_eq]
  have := or_add 6 (a % 32) (b % 64) (by have := Nat.mod_lt b (show 0 < 64 by decide); omega)
  simp only [Nat.reducePow] at this ⊢
  rw [Nat.mul_comm]
  exact this

theorem bits3 (a b c : Nat) :
    (a &&& 0x0F) <<< 12 ||| (b &&& 0x3F) <<< 6 ||| (c &&& 0x3F) =
      (a % 16) * 4096 + (b % 64) * 64 + c % 64 := by
  have h1 : a &&& 0x0F = a % 16 := Nat.and_pow_two_sub_one_eq_mod a 4
  have h2 : b &&& 0x3F = b % 64 := Nat.and_pow_two_sub_one_eq_mod b 6
  have h3 : c &&& 0x3F = c % 64 := Nat.and_pow_two_sub_one_eq_mod c 6
  rw [h1, h2, h3, Nat.shiftLeft_eq, Nat.shiftLeft_eq]
  have hb := Nat.mod_lt b (show 0 < 64 by decide)
  have hc := Nat.mod_lt c (show 0 < 64 by decide)
  have e1 := or_add 12 (a % 16) (b % 64 * 2 ^ 6) (by simp only [Nat.reducePow]; omega)
  have e2 := or_add 6 ((a % 16) * 64 + b % 64) (c % 64) (by simp only [Nat.reducePow]; omega)
  simp only [Nat.reducePow] at e1 e2 ⊢
  have e3 : a % 16 * 4096 = 4096 * (a % 16) := Nat.mul_comm _ _
  rw [e3, e1]
  have e4 : 4096 * (a % 16) + b % 64 * 64 = 64 * (a % 16 * 64 + b % 64) := by omega
  rw [e4, e2]

theorem bits4 (a b c d : Nat) :
    (a &&& 0x07) <<< 18 ||| (b &&& 0x3F) <<< 12 ||| (c &&& 0x3F) <<< 6 ||| (d &&& 0x3F) =
      (a % 8) * 262144 + (b % 64) * 4096 + (c % 64) * 64 + d % 64 := by
  have h1 : a &&& 0x07 = a % 8 := Nat.and_pow_two_sub_one_eq_mod a 3
  have h2 : b &&& 0x3F = b % 64 := Nat.and_pow_two_sub_one_eq_mod b 6
  have h3 : c &&& 0x3F = c % 64 := Nat.and_pow_two_sub_one_eq_mod c 6
  have h4 : d &&& 0x3F = d % 64 := Nat.and_pow_two_sub_one_eq_mod d 6
  rw [h1, h2, h3, h4, Nat.shiftLeft_eq, Nat.shiftLeft_eq, Nat.shiftLeft_eq]
  have hb := Nat.mod_lt b (show 0 < 64 by decide)
  have hc := Nat.mod_lt c (show 0 < 64 by decide)
  have hd := Nat.mod_lt d (show 0 < 64 by decide)
  have e1 := or_add 18 (a % 8) (b % 64 * 2 ^ 12) (by simp only [Nat.reducePow]; omega)
  have e2 := or_add 12 ((a % 8) * 64 + b % 64) (c % 64 * 2 ^ 6)
    (by simp only [Nat.reducePow]; omega)
  have e3 := or_add 6 (((a % 8) * 64 + b % 64) * 64 + c % 64) (d % 64)
    (by simp only [Nat.reducePow]; omega)
  simp only [Nat.reducePow] at e1 e2 e3 ⊢
  have f1 : a % 8 * 262144 = 262144 * (a % 8) := Nat.mul_comm _ _
  rw [f1, e1]
  have f2 : 262144 * (a % 8) + b % 64 * 4096 = 4096 * (a % 8 * 64 + b % 64) := by omega
  rw [f2, e2]
  have f3 : 4096 * (a % 8 * 64 + b % 64) + c % 64 * 64 =
      64 * ((a % 8 * 64 + b % 64) * 64 + c % 64) := by omega
  rw [f3, e3]

theorem first_lt_of_multi (c0 : Byte) (t : GoString) (h : 2 ≤ (DecodeRuneInString (c0 :: t)).2) :
    first c0 < as_ := by
  rcases lead_info c0 with h1 | h1 | h1
  · rw [decode_as _ _ h1.2] at h; simp at h
  · rw [decode_xx _ _ h1.2] at h; simp at h
  · exact h1.2.1

theorem first_lt_of_lead (c0 : Byte) (h : 0xC2 ≤ c0.val) (h' : c0.val ≤ 0xF4) :
    first c0 < as_ := by
  rcases first_cases c0 with ⟨_, hf⟩ | ⟨_, _, hf⟩ | ⟨h1, h2, hf⟩ | ⟨h1, hf⟩ | ⟨h1, h2, h3, hf⟩ |
    ⟨h1, hf⟩ | ⟨h1, hf⟩ | ⟨h1, h2, hf⟩ | ⟨h1, hf⟩
  · omega
  · omega
  all_goals rw [hf]; decide

/-- The decoder on a two-byte encoding. -/
theorem decode_two_intro (c0 c1 : Byte) (rest : GoString)
    (h0 : 0xC2 ≤ c0.val) (h0' : c0.val ≤ 0xDF) (h1 : Cont c1) :
    DecodeRuneInString (c0 :: c1 :: rest) = (c0.val % 32 * 64 + c1.val % 64, 2) := by
  have hlt := first_lt_of_lead c0 h0 (by omega)
  rcases sz_class c0 hlt with ⟨hsz, _, _, hacc⟩ | ⟨_, _, _, _⟩ | ⟨_, _, _, _⟩
  · rw [decode_lead _ _ hlt, hsz, hacc]
    simp only [Cont] at h1
    simp only [List.length_cons, List.getD_cons_zero]
    rw [if_neg (by omega), if_neg (by omega), if_pos (le_refl _)]
    simp only [mask2, maskx]
    rw [bits2]
  · omega
  · omega

/-- The decoder on a three-byte encoding. -/
theorem decode_three_intro (c0 c1 c2 : Byte) (rest : GoString)
    (h0 : 0xE0 ≤ c0.val) (h0' : c0.val ≤ 0xEF) (h1 : Cont c1) (h2 : Cont c2)
    (ha : c0.val = 0xE0 → 0xA0 ≤ c1.val) (hb : c0.val = 0xED → c1.val ≤ 0x9F) :
    DecodeRuneInString (c0 :: c1 :: c2 :: rest) =
      (c0.val % 16 * 4096 + c1.val % 64 * 64 + c2.val % 64, 3) := by
  have hlt := first_lt_of_lead c0 (by omega) (by omega)
  rcases sz_class c0 hlt with ⟨_, _, _, _⟩ | ⟨hsz, _, _, hacc⟩ | ⟨_, _, _, _⟩
  · omega
  · rw [decode_lead _ _ hlt, hsz, hacc]
    simp only [Cont] at h1 h2
    simp only [List.length_cons, List.getD_cons_zero, List.getD_cons_succ, locb, hicb]
    rw [if_neg (by omega), if_neg (by split_ifs <;> omega), if_neg (by omega), if_neg (by omega),
      if_pos (le_refl _)]
    simp only [mask3, maskx]
    rw [bits3]
  · omega

/-- The decoder on a four-byte encoding. -/
theorem decode_four_intro (c0 c1 c2 c3 : Byte) (rest : GoString)
    (h0 : 0xF0 ≤ c0.val) (h0' : c0.val ≤ 0xF4) (h1 : Cont c1) (h2 : Cont c2) (h3 : Cont c3)
    (ha : c0.val = 0xF0 → 0x90 ≤ c1.val) (hb : c0.val = 0xF4 → c1.val ≤ 0x8F) :
    DecodeRuneInString (c0 :: c1 :: c2 :: c3 :: rest) =
      (c0.val % 8 * 262144 + c1.val % 64 * 4096 + c2.val % 64 * 64 + c3.val % 64, 4) := by
  have hlt := first_lt_of_lead c0 (by omega) (by omega)
  rcases sz_class c0 hlt with ⟨_, _, _, _⟩ | ⟨_, _, _, _⟩ | ⟨hsz, _, _, hacc⟩
  · omega
  · omega
  · rw [decode_lead _ _ hlt, hsz, hacc]
    simp only [Cont] at h1 h2 h3
    simp only [List.length_cons, List.getD_cons_zero, List.getD_cons_succ, locb, hicb]
    rw [if_neg (by omega), if_neg (by split_ifs <;> omega), if_neg (by omega), if_neg (by omega),
      if_neg (by omega), if_neg (by omega)]
    simp only [mask4, maskx]
    rw [bits4]

/-- The shape of a string on which the decoder reads a multi-byte rune. -/
theorem decode_shape (c0 : Byte) (t : GoString) (h : 2 ≤ (DecodeRuneInString (c0 :: t)).2) :
    (∃ c1 t', t = c1 :: t' ∧ 0xC2 ≤ c0.val ∧ c0.val ≤ 0xDF ∧ Cont c1) ∨
    (∃ c1 c2 t', t = c1 :: c2 :: t' ∧ 0xE0 ≤ c0.val ∧ c0.val ≤ 0xEF ∧ Cont c1 ∧ Cont c2 ∧
      (c0.val = 0xE0 → 0xA0 ≤ c1.val) ∧ (c0.val = 0xED → c1.val ≤ 0x9F)) ∨
    (∃ c1 c2 c3 t', t = c1 :: c2 :: c3 :: t' ∧ 0xF0 ≤ c0.val ∧ c0.val ≤ 0xF4 ∧
      Cont c1 ∧ Cont c2 ∧ Cont c3 ∧
      (c0.val = 0xF0 → 0x90 ≤ c1.val) ∧ (c0.val = 0xF4 → c1.val ≤ 0x8F)) := by
  have hlt := first_lt_of_multi c0 t h
  have key := decode_lead c0 t hlt
  rcases sz_class c0 hlt with ⟨hsz, h0, h0', hacc⟩ | ⟨hsz, h0, h0', hacc⟩ | ⟨hsz, h0, h0', hacc⟩
  · left
    rw [hsz, hacc] at key
    rcases t with _ | ⟨c1, t'⟩
    · rw [key] at h; simp at h
    · refine ⟨c1, t', rfl, h0, h0', ?_⟩
      by_contra hc
      simp only [Cont] at hc
      simp only [List.length_cons, List.getD_cons_zero] at key
      rw [if_neg (by omega), if_pos (by omega)] at key
      rw [key] at h; simp at h
  · right; left
    rw [hsz, hacc] at key
    simp only [locb, hicb] at key
    rcases t with _ | ⟨c1, _ | ⟨c2, t'⟩⟩
    · rw [key] at h; simp at h
    · rw [key] at h; simp at h
    · simp only [List.length_cons, List.getD_cons_zero, List.getD_cons_succ] at key
      rw [if_neg (by omega)] at key
      by_cases k2 : c1.val < (if c0.val = 0xE0 then 0xA0 else 0x80) ∨
          (if c0.val = 0xED then 0x9F else 0xBF) < c1.val
      · rw [if_pos k2] at key; rw [key] at h; simp at h
      · rw [if_neg k2, if_neg (by omega)] at key
        by_cases k4 : c2.val < 128 ∨ 191 < c2.val
        · rw [if_pos k4] at key; rw [key] at h; simp at h
        · refine ⟨c1, c2, t', rfl, h0, h0', ?_, ?_, ?_, ?_⟩
          · simp only [Cont]; split_ifs at k2 <;> omega
          · simp only [Cont]; omega
          · intro he; simp only [he, if_true] at k2; omega
          · intro he; simp only [he, if_true] at k2; omega
  · right; right
    rw [hsz, hacc] at key
    simp only [locb, hicb] at key
    rcases t with _ | ⟨c1, _ | ⟨c2, _ | ⟨c3, t'⟩⟩⟩
    · rw [key] at h; simp at h
    · rw [key] at h; simp at h
    · rw [key] at h; simp at h
    · simp only [List.length_cons, List.getD_cons_zero, List.getD_cons_succ] at key
      rw [if_neg (by omega)] at key
      by_cases k2 : c1.val < (if c0.val = 0xF0 then 0x90 else 0x80) ∨
          (if c0.val = 0xF4 then 0x8F else 0xBF) < c1.val
      · rw [if_pos k2] at key; rw [key] at h; simp at h
      · rw [if_neg k2, if_neg (by omega)] at key
        by_cases k4 : c2.val < 128 ∨ 191 < c2.val
        · rw [if_pos k4] at key; rw [key] at h; simp at h
        · rw [if_neg k4, if_neg (by omega)] at key
          by_cases k6 : c3.val < 128 ∨ 191 < c3.val
          · rw [if_pos k6] at key; rw [key] at h; simp at h
          · refine ⟨c1, c2, c3, t', rfl, h0, h0', ?_, ?_, ?_, ?_, ?_⟩
            · simp only [Cont]; split_ifs at k2 <;> omega
            · simp only [Cont]; omega
            · simp only [Cont]; omega
            · intro he; simp only [he, if_true] at k2; omega
            · intro he; simp only [he, if_true] at k2; omega

theorem byte_ofNat_val (x : Nat) (h : x < 256) : ((Fin.ofNat x : Byte)).val = x := by
  simp [Fin.ofNat]
  omega

theorem or_lead (i k x : Nat) (n : Nat) (hn : n = 2 ^ i * k) (h : x < 2 ^ i) : n ||| x = n + x := by
  subst hn
  exact or_add i k x h

/-- The encoder in arithmetic form. -/
theorem encode_eq (r : Nat) :
    EncodeRune r =
      if r ≤ 0x7F then [Fin.ofNat r]
      else if r ≤ 0x7FF then [Fin.ofNat (0xC0 + r / 64), Fin.ofNat (0x80 + r % 64)]
      else if r > 0x10FFFF ∨ (0xD800 ≤ r ∧ r ≤ 0xDFFF) then [0xEF, 0xBF, 0xBD]
      else if r ≤ 0xFFFF then
        [Fin.ofNat (0xE0 + r / 4096), Fin.ofNat (0x80 + r / 64 % 64), Fin.ofNat (0x80 + r % 64)]
      else
        [Fin.ofNat (0xF0 + r / 262144), Fin.ofNat (0x80 + r / 4096 % 64),
         Fin.ofNat (0x80 + r / 64 % 64), Fin.ofNat (0x80 + r % 64)] := by
  have m0 : r &&& 0x3F = r % 64 := Nat.and_pow_two_sub_one_eq_mod r 6
  have m1 : (r / 64) &&& 0x3F = r / 64 % 64 := Nat.and_pow_two_sub_one_eq_mod _ 6
  have m2 : (r / 4096) &&& 0x3F = r / 4096 % 64 := Nat.and_pow_two_sub_one_eq_mod _ 6
  have d6 : r >>> 6 = r / 64 := Nat.shiftRight_eq_div_pow r 6
  have d12 : r >>> 12 = r / 4096 := Nat.shiftRight_eq_div_pow r 12
  have d18 : r >>> 18 = r / 262144 := Nat.shiftRight_eq_div_pow r 18
  have x0 : 0x80 ||| r % 64 = 0x80 + r % 64 :=
    or_lead 7 1 _ _ (by norm_num) (by have := Nat.mod_lt r (show 0 < 64 by decide); norm_num; omega)
  have x1 : 0x80 ||| r / 64 % 64 = 0x80 + r / 64 % 64 :=
    or_lead 7 1 _ _ (by norm_num)
      (by have := Nat.mod_lt (r / 64) (show 0 < 64 by decide); norm_num; omega)
  have x2 : 0x80 ||| r / 4096 % 64 = 0x80 + r / 4096 % 64 :=
    or_lead 7 1 _ _ (by norm_num)
      (by have := Nat.mod_lt (r / 4096) (show 0 < 64 by decide); norm_num; omega)
  unfold EncodeRune
  simp only [rune1Max, rune2Max, rune3Max, MaxRune, surrogateMin, surrogateMax, t2, t3, t4, tx,
    maskx, d6, d12, d18, m0, m1, m2, x0, x1, x2]
  by_cases h1 : r ≤ 0x7F
  · simp only [h1, if_true]
  · simp only [h1, if_false]
    by_cases h2 : r ≤ 0x7FF
    · simp only [h2, if_true]
      rw [or_lead 6 3 (r / 64) _ (by norm_num) (by norm_num; omega)]
    · simp only [h2, if_false]
      by_cases h3 : r > 0x10FFFF ∨ (0xD800 ≤ r ∧ r ≤ 0xDFFF)
      · simp only [h3, if_true]
      · simp only [h3, if_false]
        by_cases h4 : r ≤ 0xFFFF
        · simp only [h4, if_true]
          rw [or_lead 5 7 (r / 4096) _ (by norm_num) (by norm_num; omega)]
        · simp only [h4, if_false]
          rw [or_lead 4 15 (r / 262144) _ (by norm_num) (by norm_num; omega)]

theorem validRune_iff (r : Nat) :
    ValidRune r = true ↔ r ≤ 0x10FFFF ∧ ¬ (0xD800 ≤ r ∧ r ≤ 0xDFFF) := by
  simp only [ValidRune, surrogateMin, surrogateMax, MaxRune]
  split_ifs <;> simp <;> omega

/-- Decoding after encoding gives the rune back, whatever follows. -/
theorem decode_encode (r : Nat) (rest : GoString) (h : ValidRune r = true) :
    DecodeRuneInString (EncodeRune r ++ rest) = (r, (EncodeRune r).length) := by
  rw [validRune_iff] at h
  rw [encode_eq]
  by_cases h1 : r ≤ 0x7F
  · simp only [h1, if_true, List.singleton_append, List.length_singleton]
    have hv := byte_ofNat_val r (by omega)
    rw [decode_ascii _ _ (by omega), hv]
  · simp only [h1, if_false]
    by_cases h2 : r ≤ 0x7FF
    · simp only [h2, if_true, List.cons_append, List.nil_append, List.length_cons,
        List.length_nil]
      have v0 := byte_ofNat_val (0xC0 + r / 64) (by omega)
      have v1 := byte_ofNat_val (0x80 + r % 64) (by omega)
      rw [decode_two_intro _ _ _ (by omega) (by omega) (by simp only [Cont]; omega), v0, v1]
      congr 1
      omega
    · simp only [h2, if_false]
      have h3 : ¬ (r > 0x10FFFF ∨ (0xD800 ≤ r ∧ r ≤ 0xDFFF)) := by omega
      simp only [h3, if_false]
      by_cases h4 : r ≤ 0xFFFF
      · simp only [h4, if_true, List.cons_append, List.nil_append, List.length_cons,
          List.length_nil]
        have v0 := byte_ofNat_val (0xE0 + r / 4096) (by omega)
        have v1 := byte_ofNat_val (0x80 + r / 64 % 64) (by omega)
        have v2 := byte_ofNat_val (0x80 + r % 64) (by omega)
        rw [decode_three_intro _ _ _ _ (by omega) (by omega) (by simp only [Cont]; omega)
          (by simp only [Cont]; omega) (by omega) (by omega), v0, v1, v2]
        congr 1
        omega
      · simp only [h4, if_false, List.cons_append, List.nil_append, List.length_cons,
          List.length_nil]
        have v0 := byte_ofNat_val (0xF0 + r / 262144) (by omega)
        have v1 := byte_ofNat_val (0x80 + r / 4096 % 64) (by omega)
        have v2 := byte_ofNat_val (0x80 + r / 64 % 64) (by omega)
        have v3 := byte_ofNat_val (0x80 + r % 64) (by omega)
        rw [decode_four_intro _ _ _ _ _ (by omega) (by omega) (by simp only [Cont]; omega)
          (by simp only [Cont]; omega) (by simp only [Cont]; omega) (by omega) (by omega),
          v0, v1, v2, v3]
        congr 1
        omega

theorem byte_ofNat_eq (c : Byte) (x : Nat) (h : x = c.val) : (Fin.ofNat x : Byte) = c := by
  apply Fin.ext
  rw [byte_ofNat_val x (by omega), h]

/-- Encoding what the decoder read from a valid encoding gives the bytes back. -/
theorem encode_decode (c0 : Byte) (t : GoString)
    (h : c0.val < 0x80 ∨ 2 ≤ (DecodeRuneInString (c0 :: t)).2) :
    EncodeRune (DecodeRuneInString (c0 :: t)).1 =
      (c0 :: t).take (DecodeRuneInString (c0 :: t)).2 ∧
    ValidRune (DecodeRuneInString (c0 :: t)).1 = true := by
  rw [validRune_iff, encode_eq]
  by_cases hc : c0.val < 0x80
  · rw [decode_ascii _ _ hc]
    have h1 : c0.val ≤ 0x7F := by omega
    simp only [h1, if_true]
    refine ⟨?_, by omega, by omega⟩
    simp [byte_ofNat_eq c0 c0.val rfl]
  · have h2 := h.resolve_left hc
    rcases decode_shape c0 t h2 with ⟨c1, t', rfl, a0, a1, a2⟩ |
      ⟨c1, c2, t', rfl, a0, a1, a2, a3, a4, a5⟩ |
      ⟨c1, c2, c3, t', rfl, a0, a1, a2, a3, a4, a5, a6⟩
    · rw [decode_two_intro _ _ _ a0 a1 a2]
      simp only [Cont] at a2
      have e1 : ¬ (c0.val % 32 * 64 + c1.val % 64 ≤ 0x7F) := by omega
      have e2 : c0.val % 32 * 64 + c1.val % 64 ≤ 0x7FF := by omega
      simp only [e1, e2, if_true, if_false]
      refine ⟨?_, by omega, by omega⟩
      rw [byte_ofNat_eq c0 _ (by omega), byte_ofNat_eq c1 _ (by omega)]
      simp
    · rw [decode_three_intro _ _ _ _ a0 a1 a2 a3 a4 a5]
      simp only [Cont] at a2 a3
      have e1 : ¬ (c0.val % 16 * 4096 + c1.val % 64 * 64 + c2.val % 64 ≤ 0x7F) := by omega
      have e2 : ¬ (c0.val % 16 * 4096 + c1.val % 64 * 64 + c2.val % 64 ≤ 0x7FF) := by omega
      have e3 : ¬ (c0.val % 16 * 4096 + c1.val % 64 * 64 + c2.val % 64 > 0x10FFFF ∨
          (0xD800 ≤ c0.val % 16 * 4096 + c1.val % 64 * 64 + c2.val % 64 ∧
            c0.val % 16 * 4096 + c1.val % 64 * 64 + c2.val % 64 ≤ 0xDFFF)) := by omega
      have e4 : c0.val % 16 * 4096 + c1.val % 64 * 64 + c2.val % 64 ≤ 0xFFFF := by omega
      simp only [e1, e2, e3, e4, if_true, if_false]
      refine ⟨?_, by omega, by omega⟩
      rw [byte_ofNat_eq c0 _ (by omega), byte_ofNat_eq c1 _ (by omega),
        byte_ofNat_eq c2 _ (by omega)]
      simp
    · rw [decode_four_intro _ _ _ _ _ a0 a1 a2 a3 a4 a5 a6]
      simp only [Cont] at a2 a3 a4
      have e1 : ¬ (c0.val % 8 * 262144 + c1.val % 64 * 4096 + c2.val % 64 * 64 + c3.val % 64
          ≤ 0x7F) := by omega
      have e2 : ¬ (c0.val % 8 * 262144 + c1.val % 64 * 4096 + c2.val % 64 * 64 + c3.val % 64
          ≤ 0x7FF) := by omega
      have e3 : ¬ (c0.val % 8 * 262144 + c1.val % 64 * 4096 + c2.val % 64 * 64 + c3.val % 64
            > 0x10FFFF ∨
          (0xD800 ≤ c0.val % 8 * 262144 + c1.val % 64 * 4096 + c2.val % 64 * 64 + c3.val % 64 ∧
            c0.val % 8 * 262144 + c1.val % 64 * 4096 + c2.val % 64 * 64 + c3.val % 64
              ≤ 0xDFFF)) := by omega
      have e4 : ¬ (c0.val % 8 * 262144 + c1.val % 64 * 4096 + c2.val % 64 * 64 + c3.val % 64
          ≤ 0xFFFF) := by omega
      simp only [e1, e2, e3, e4, if_false]
      refine ⟨?_, by omega, by omega⟩
      rw [byte_ofNat_eq c0 _ (by omega), byte_ofNat_eq c1 _ (by omega),
        byte_ofNat_eq c2 _ (by omega), byte_ofNat_eq c3 _ (by omega)]
      simp

/-! ## The declarative notions: well-formed UTF-8, white space -/

theorem encode_good (r : Nat) :
    ∃ c t, EncodeRune r = c :: t ∧ (c.val < 0x80 ∨ 2 ≤ (EncodeRune r).length) := by
  rw [encode_eq]
  by_cases h1 : r ≤ 0x7F
  · simp only [h1, if_true]
    refine ⟨_, _, rfl, Or.inl ?_⟩
    rw [byte_ofNat_val r (by omega)]
    omega
  · simp only [h1, if_false]
    split_ifs <;> exact ⟨_, _, rfl, Or.inr (by simp)⟩

theorem isSpace_validRune (r : Nat) (h : IsSpace r = true) : ValidRune r = true := by
  rw [validRune_iff]
  simp only [IsSpace, MaxLatin1, isExcludingLatin_White_Space, White_Space_R16,
    White_Space_LatinOffset, is16] at h
  split_ifs at h with h1 h2
  · omega
  · simp at h2
    omega

theorem valid_encode_append (r : Nat) (rest : GoString) (h : ValidRune r = true) :
    ValidString (EncodeRune r ++ rest) = ValidString rest := by
  obtain ⟨c, t, hct, hgood⟩ := encode_good r
  have hd := decode_encode r rest h
  rw [hct] at hd
  rw [hct, List.cons_append, valid_cons, ← List.cons_append, hd]
  have hg : decide (c.val < 0x80 ∨ 2 ≤ (r, (c :: t).length).2) = true := by
    rw [hct] at hgood
    simp only [decide_eq_true_eq]; exact hgood
  rw [hg, Bool.true_and]
  simp only
  rw [List.drop_append_of_le_length (le_refl _), List.drop_length, List.nil_append]

/-- The function `utf8.ValidString` accepts exactly the encodings of sequences of scalar values. -/
theorem valid_iff_wellFormed (s : GoString) : ValidString s = true ↔ WellFormedUTF8 s := by
  constructor
  · intro hv
    generalize hn : s.length = n
    induction n using Nat.strong_induction_on generalizing s with
    | _ n ih =>
      rcases s with _ | ⟨c, t⟩
      · exact ⟨[], by simp, by simp⟩
      · rw [valid_cons] at hv
        simp only [Bool.and_eq_true, decide_eq_true_eq] at hv
        obtain ⟨hgood, hrest⟩ := hv
        have hs := decode_size (c :: t) (by simp)
        obtain ⟨he, hr⟩ := encode_decode c t hgood
        obtain ⟨rs, hrs, hrest'⟩ := ih _ (by subst hn; rw [List.length_drop]; omega) _ hrest rfl
        refine ⟨(DecodeRuneInString (c :: t)).1 :: rs, ?_, ?_⟩
        · intro r hr'
          rcases List.mem_cons.mp hr' with rfl | hr'
          · exact hr
          · exact hrs r hr'
        · rw [List.flatMap_cons, he, ← hrest', List.take_append_drop]
  · rintro ⟨rs, hrs, rfl⟩
    induction rs with
    | nil => simp [valid_nil]
    | cons r rs ih =>
      rw [List.flatMap_cons, valid_encode_append r _ (hrs r (List.mem_cons_self _ _))]
      exact ih (fun x hx => hrs x (List.mem_cons_of_mem _ hx))

/-- A run of chunks decoding to white space is the encoding of white space
characters, and conversely. -/
theorem runOf_isSpace_iff (s : GoString) : RunOf IsSpace s ↔ IsWhitespace s := by
  constructor
  · rintro ⟨es, rfl, hes⟩
    induction es with
    | nil => exact ⟨[], by simp, by simp⟩
    | cons e es ih =>
      obtain ⟨rs, hrs, hflat⟩ := ih (fun x hx => hes x (List.mem_cons_of_mem _ hx))
      obtain ⟨hne, hlen, hsp⟩ := hes e (List.mem_cons_self _ _)
      rcases e with _ | ⟨c, t⟩
      · exact absurd rfl hne
      · have hgood : c.val < 0x80 ∨ 2 ≤ (DecodeRuneInString (c :: t)).2 := by
          by_contra hn
          have hs := decode_size (c :: t) (by simp)
          have := decode_one_hi c t (by omega) (by omega)
          rw [this, isSpace_runeError] at hsp
          exact absurd hsp (by simp)
        obtain ⟨he, _⟩ := encode_decode c t hgood
        rw [hlen, List.take_length] at he
        refine ⟨(DecodeRuneInString (c :: t)).1 :: rs, ?_, ?_⟩
        · intro r hr'
          rcases List.mem_cons.mp hr' with rfl | hr'
          · exact hsp
          · exact hrs r hr'
        · rw [List.flatMap_cons, he, ← hflat, List.flatten_cons]
  · rintro ⟨rs, hrs, rfl⟩
    induction rs with
    | nil => exact runOf_nil _
    | cons r rs ih =>
      have hr := hrs r (List.mem_cons_self _ _)
      have hd := decode_encode r [] (isSpace_validRune r hr)
      rw [List.append_nil] at hd
      obtain ⟨c, t, hct, _⟩ := encode_good r
      rw [List.flatMap_cons]
      apply runOf_cons IsSpace _ _ (by rw [hct]; simp) (by rw [hd]) (by rw [hd]; exact hr)
      exact ih (fun x hx => hrs x (List.mem_cons_of_mem _ hx))

/-! ## The backward decoder finds a valid encoding at the end -/

set_option maxRecDepth 100000 in
theorem runeStart_iff (c : Byte) : RuneStart c = false ↔ Cont c := by
  unfold Cont
  revert c
  decide

theorem scan_spec (s : GoString) (lim : Int) :
    ∀ (fuel : Nat) (start j : Int), lim ≤ j → j ≤ start → start - j < fuel →
      RuneStart (s.getD j.toNat 0) = true →
      (∀ i : Int, j < i → i ≤ start → RuneStart (s.getD i.toNat 0) = false) →
      DecodeLastRuneInString.scan s lim fuel start = j := by
  intro fuel
  induction fuel with
  | zero => intro start j _ h2 h3 _ _; omega
  | succ n ih =>
    intro start j h1 h2 h3 h4 h5
    simp only [DecodeLastRuneInString.scan]
    rw [if_pos (by omega)]
    by_cases hs : RuneStart (s.getD start.toNat 0) = true
    · rw [if_pos hs]
      by_contra hne
      have := h5 start (by omega) (le_refl _)
      rw [this] at hs
      exact absurd hs (by simp)
    · rw [if_neg hs]
      have hne : j ≠ start := by
        intro he; subst he; exact hs h4
      exact ih (start - 1) j h1 (by omega) (by omega) h4
        (fun i hi1 hi2 => h5 i hi1 (by omega))

/-- After any string, a complete valid encoding is what the backward decoder reads. -/
theorem decodeLast_append_chunk (pre : GoString) (c0 : Byte) (t : GoString)
    (hlen : (DecodeRuneInString (c0 :: t)).2 = (c0 :: t).length)
    (hgood : c0.val < 0x80 ∨ 2 ≤ (DecodeRuneInString (c0 :: t)).2) :
    DecodeLastRuneInString (pre ++ c0 :: t) = DecodeRuneInString (c0 :: t) := by
  by_cases hc : c0.val < 0x80
  · rw [decode_ascii _ _ hc] at hlen ⊢
    have : t = [] := by
      apply List.eq_nil_of_length_eq_zero
      simp only [List.length_cons] at hlen
      omega
    subst this
    exact decodeLast_ascii pre c0 hc
  · have h2 := hgood.resolve_left hc
    obtain ⟨hlead, e, t', ht, hel, hcont, _⟩ := decode_multi c0 t h2
    have hs4 : (DecodeRuneInString (c0 :: t)).2 ≤ 4 := by
      rcases decode_shape c0 t h2 with ⟨c1, u, rfl, a0, a1, a2⟩ |
        ⟨c1, c2, u, rfl, a0, a1, a2, a3, a4, a5⟩ |
        ⟨c1, c2, c3, u, rfl, a0, a1, a2, a3, a4, a5, a6⟩
      · simp [decode_two_intro _ _ _ a0 a1 a2]
      · simp [decode_three_intro _ _ _ _ a0 a1 a2 a3 a4 a5]
      · simp [decode_four_intro _ _ _ _ _ a0 a1 a2 a3 a4 a5 a6]
    have ht' : t' = [] := by
      apply List.eq_nil_of_length_eq_zero
      have := congrArg List.length ht
      simp at this hlen
      omega
    subst ht'
    simp only [List.append_nil] at ht
    subst ht
    -- the string, its length and its bytes
    generalize hk : (DecodeRuneInString (c0 :: t)).2 = k at *
    simp only [List.length_cons] at hlen
    have hend : ((pre ++ c0 :: t).length : Int) = pre.length + k := by
      simp; omega
    have hget : ∀ m, (pre ++ c0 :: t).getD (pre.length + m) 0 = (c0 :: t).getD m 0 := by
      intro m
      simp [List.getD_eq_getElem?_getD, List.getElem?_append_right]
    have hgetc : ∀ m, 1 ≤ m → m < k → Cont ((c0 :: t).getD m 0) := by
      intro m hm1 hm2
      obtain ⟨m', rfl⟩ : ∃ m', m = m' + 1 := ⟨m - 1, by omega⟩
      rw [List.getD_cons_succ]
      apply hcont
      rw [List.getD_eq_getElem _ _ (by omega)]
      exact List.getElem_mem _
    have hlastc : Cont ((pre ++ c0 :: t).getD (pre.length + (k - 1)) 0) := by
      rw [hget]; exact hgetc _ (by omega) (by omega)
    unfold DecodeLastRuneInString
    simp only [hend]
    rw [if_neg (by omega)]
    have htn : ((pre.length : Int) + k - 1).toNat = pre.length + (k - 1) := by omega
    rw [htn]
    rw [if_neg (by simp only [Cont] at hlastc; simp only [RuneSelf]; omega)]
    have hscan : DecodeLastRuneInString.scan (pre ++ c0 :: t)
        (if (pre.length : Int) + k - UTFMax < 0 then 0 else (pre.length : Int) + k - UTFMax)
        (UTFMax + 1) ((pre.length : Int) + k - 1 - 1) = pre.length := by
      apply scan_spec
      · simp only [UTFMax]; split_ifs <;> omega
      · omega
      · simp only [UTFMax]; omega
      · have : ((pre.length : Int)).toNat = pre.length + 0 := by omega
        rw [this, hget]
        simp only [List.getD_cons_zero]
        by_contra hn
        have := (runeStart_iff c0).mp (by simpa using hn)
        simp only [Cont] at this
        omega
      · intro i hi1 hi2
        have : i.toNat = pre.length + (i.toNat - pre.length) := by omega
        rw [this, hget, runeStart_iff]
        exact hgetc _ (by omega) (by omega)
    rw [hscan]
    have hnn : ¬ ((pre.length : Int) < 0) := by omega
    simp only [hnn, if_false, Int.toNat_ofNat]
    rw [List.drop_append_of_le_length (le_refl _), List.drop_length, List.nil_append]
    rcases hd : DecodeRuneInString (c0 :: t) with ⟨r, size⟩
    rw [hd] at hk
    simp only at hk ⊢
    subst hk
    rw [if_neg (by omega)]

/-! ## strings.TrimSpace against its documentation -/

/-- A run of white space is trimmed away entirely from the left. -/
theorem TrimLeftFunc_runOf (f : Nat → Bool) (hf : f RuneError = false) (s : GoString)
    (h : RunOf f s) : TrimLeftFunc s f = [] := by
  obtain ⟨es, rfl, hes⟩ := h
  induction es with
  | nil => simp [TrimLeftFunc_nil]
  | cons e es ih =>
    obtain ⟨hne, hlen, hsp⟩ := hes e (List.mem_cons_self _ _)
    have hne' : (DecodeRuneInString e).1 ≠ RuneError := by
      intro hE; rw [hE, hf] at hsp; exact absurd hsp (by simp)
    have hd := decode_take_append e es.flatten hne'
    rw [hlen, List.take_length] at hd
    rw [List.flatten_cons, TrimLeftFunc_step f _ (by simp [hne]) (by rw [hd]; exact hsp), hd, hlen,
      List.drop_append_of_le_length (le_refl _), List.drop_length, List.nil_append]
    exact ih (fun x hx => hes x (List.mem_cons_of_mem _ hx))

/-- The result of `TrimSpace` on a string of white space characters only is empty. -/
theorem TrimSpace_whitespace (s : GoString) (h : IsWhitespace s) : TrimSpace s = [] := by
  rw [TrimSpace_eq_TrimFunc, TrimFunc,
    TrimLeftFunc_runOf IsSpace isSpace_runeError s ((runOf_isSpace_iff s).mpr h),
    TrimRightFunc_nil]

/-- The function `TrimSpace` does what its documentation says: it removes white space
characters from both ends, nothing else, and leaves none at either end. -/
theorem TrimSpace_spec (s : GoString) :
    (∃ pre post, s = pre ++ TrimSpace s ++ post ∧ IsWhitespace pre ∧ IsWhitespace post) ∧
    (∀ r rest, IsSpace r = true → TrimSpace s ≠ EncodeRune r ++ rest) ∧
    (∀ r pre, IsSpace r = true → TrimSpace s ≠ pre ++ EncodeRune r) := by
  rw [TrimSpace_eq_TrimFunc]
  unfold TrimFunc
  obtain ⟨⟨pre, hpre, hrpre⟩, hlt⟩ := TrimLeftFunc_spec IsSpace isSpace_runeError s
  obtain ⟨⟨post, hpost, hrpost⟩, hrt⟩ :=
    TrimRightFunc_spec IsSpace isSpace_runeError (TrimLeftFunc s IsSpace)
  have hlt' := TrimRightFunc_keeps_lt IsSpace isSpace_runeError _ hlt
  refine ⟨⟨pre, post, ?_, (runOf_isSpace_iff _).mp hrpre, (runOf_isSpace_iff _).mp hrpost⟩, ?_, ?_⟩
  · rw [List.append_assoc, ← hpost, ← hpre]
  · intro r rest hr heq
    have hd := decode_encode r rest (isSpace_validRune r hr)
    rw [← heq] at hd
    rcases hlt' with h | h
    · obtain ⟨c, t, hct, _⟩ := encode_good r
      rw [h, hct] at heq
      simp at heq
    · rw [hd] at h
      simp only at h
      rw [hr] at h
      exact absurd h (by simp)
  · intro r pre' hr heq
    obtain ⟨c, t, hct, hgood⟩ := encode_good r
    have hd := decode_encode r [] (isSpace_validRune r hr)
    rw [List.append_nil, hct] at hd
    have hl := decodeLast_append_chunk pre' c t (by rw [hd]) (by
      rw [hd]; rw [hct] at hgood; exact hgood)
    rw [← hct, ← heq] at hl
    rcases hrt with h | h
    · rw [h, hct] at heq
      simp at heq
    · rw [hl, hct, hd] at h
      simp only at h
      rw [hr] at h
      exact absurd h (by simp)

/-! ## The result of TrimSpace is determined by its documentation -/

/-- A chunk that decodes to a rune satisfying `f` is a valid encoding. -/
theorem chunk_good (f : Nat → Bool) (hf : f RuneError = false) (c : Byte) (t : GoString)
    (h : f (DecodeRuneInString (c :: t)).1 = true) :
    c.val < 0x80 ∨ 2 ≤ (DecodeRuneInString (c :: t)).2 := by
  by_contra hn
  have hs := decode_size (c :: t) (by simp)
  have := decode_one_hi c t (by omega) (by omega)
  rw [this, hf] at h
  exact absurd h (by simp)

/-- A run of runes satisfying `f` in front of a string is trimmed away from the left. -/
theorem TrimLeftFunc_runOf_append (f : Nat → Bool) (hf : f RuneError = false)
    (pre x : GoString) (h : RunOf f pre) : TrimLeftFunc (pre ++ x) f = TrimLeftFunc x f := by
  obtain ⟨es, rfl, hes⟩ := h
  induction es with
  | nil => simp
  | cons e es ih =>
    obtain ⟨hne, hlen, hsp⟩ := hes e (List.mem_cons_self _ _)
    have hne' : (DecodeRuneInString e).1 ≠ RuneError := by
      intro hE; rw [hE, hf] at hsp; exact absurd hsp (by simp)
    have hd := decode_take_append e (es.flatten ++ x) hne'
    rw [hlen, List.take_length] at hd
    rw [List.flatten_cons, List.append_assoc,
      TrimLeftFunc_step f _ (by simp [hne]) (by rw [hd]; exact hsp), hd, hlen,
      List.drop_append_of_le_length (le_refl _), List.drop_length, List.nil_append]
    exact ih (fun y hy => hes y (List.mem_cons_of_mem _ hy))

/-- A run of runes satisfying `f` after a string is trimmed away from the right. -/
theorem TrimRightFunc_append_runOf (f : Nat → Bool) (hf : f RuneError = false)
    (post : GoString) (h : RunOf f post) :
    ∀ x, TrimRightFunc (x ++ post) f = TrimRightFunc x f := by
  obtain ⟨es, rfl, hes⟩ := h
  induction es with
  | nil => intro x; simp
  | cons e es ih =>
    intro x
    obtain ⟨hne, hlen, hsp⟩ := hes e (List.mem_cons_self _ _)
    rw [List.flatten_cons, ← List.append_assoc,
      ih (fun y hy => hes y (List.mem_cons_of_mem _ hy)) (x ++ e)]
    rcases e with _ | ⟨c, t⟩
    · exact absurd rfl hne
    · have hl := decodeLast_append_chunk x c t hlen (chunk_good f hf c t hsp)
      rw [TrimRightFunc_step f hf (x ++ c :: t) (by simp) (by rw [hl]; exact hsp), hl, hlen]
      congr 1
      rw [List.length_append, Nat.add_sub_cancel, List.take_left]

/-- A non-empty run of runes other than the error rune does not start with a
continuation byte. -/
theorem runOf_head (f : Nat → Bool) (hf : f RuneError = false) (s : GoString) (h : RunOf f s) :
    ∀ d t, s = d :: t → ¬ Cont d := by
  obtain ⟨es, rfl, hes⟩ := h
  induction es with
  | nil => intro d t h; simp at h
  | cons e es ih =>
    intro d t hd
    obtain ⟨hne, hlen, hsp⟩ := hes e (List.mem_cons_self _ _)
    rcases e with _ | ⟨c, u⟩
    · exact absurd rfl hne
    · rw [List.flatten_cons, List.cons_append] at hd
      have hcd : c = d := (List.cons.inj hd).1
      rw [← hcd]
      apply head_not_cont c u
      intro hE
      rw [hE, hf] at hsp
      exact absurd hsp (by simp)

/-- Whatever string has only white space around a non-empty core with no
white space character at either end, `TrimSpace` returns the core. -/
theorem TrimSpace_unique (o m pre post : GoString) (ho : o = pre ++ m ++ post)
    (hpre : IsWhitespace pre) (hpost : IsWhitespace post) (hne : m ≠ [])
    (hl : ∀ r rest, IsSpace r = true → m ≠ EncodeRune r ++ rest)
    (ht : ∀ r p, IsSpace r = true → m ≠ p ++ EncodeRune r) : TrimSpace o = m := by
  have hrpre := (runOf_isSpace_iff pre).mpr hpre
  have hrpost := (runOf_isSpace_iff post).mpr hpost
  have hhead := runOf_head IsSpace isSpace_runeError post hrpost
  rw [TrimSpace_eq_TrimFunc, TrimFunc, ho, List.append_assoc,
    TrimLeftFunc_runOf_append IsSpace isSpace_runeError pre _ hrpre]
  -- the core does not start with white space
  have hfirst : IsSpace (DecodeRuneInString (m ++ post)).1 = false := by
    by_contra hn
    have hsp : IsSpace (DecodeRuneInString (m ++ post)).1 = true := by simpa using hn
    rcases m with _ | ⟨c, t⟩
    · exact hne rfl
    · rw [List.cons_append] at hsp
      have hgood := chunk_good IsSpace isSpace_runeError c (t ++ post) hsp
      obtain ⟨henc, _⟩ := encode_decode c (t ++ post) hgood
      by_cases hc : c.val < 0x80
      · rw [decode_ascii _ _ hc] at henc hsp
        simp only [List.take_succ_cons, List.take_zero] at henc
        exact hl c.val t hsp (by rw [henc]; rfl)
      · have h2 := hgood.resolve_left hc
        obtain ⟨_, e, t', hte, hlen, hcont, _⟩ := decode_multi c (t ++ post) h2
        by_cases hle : e.length ≤ t.length
        · -- the whole encoding lies in the core
          have hpre' : e = t.take e.length := by
            have := congrArg (List.take e.length) hte
            rw [List.take_append_of_le_length hle, List.take_left] at this
            exact this.symm
          have h1 : (c :: (t ++ post)).take (e.length + 1) = c :: e := by
            rw [List.take_succ_cons, hte, List.take_left]
          have h3 : t = e ++ t.drop e.length := by
            conv_lhs => rw [← List.take_append_drop e.length t, ← hpre']
          refine hl _ (t.drop e.length) hsp ?_
          rw [henc, ← hlen, h1, List.cons_append, ← h3]
        · -- the encoding would run into the white space after the core
          rcases post with _ | ⟨d, post'⟩
          · rw [List.append_nil] at hte
            have := congrArg List.length hte
            rw [List.length_append] at this
            omega
          · have hd : Cont d := by
              apply hcont
              have hget : (t ++ d :: post')[t.length]? = some d := by
                rw [List.getElem?_append_right (le_refl _)]
                simp
              rw [hte, List.getElem?_append_left (by omega)] at hget
              exact List.mem_iff_getElem?.mpr ⟨t.length, hget⟩
            exact hhead d post' rfl hd
  rw [TrimLeftFunc_stop IsSpace _ (by simp [hne]) hfirst,
    TrimRightFunc_append_runOf IsSpace isSpace_runeError post hrpost m]
  -- the core does not end with white space
  apply TrimRightFunc_stop IsSpace m hne
  by_contra hn
  have hsp : IsSpace (DecodeLastRuneInString m).1 = true := by simpa using hn
  obtain ⟨c1, c2, c3, c4⟩ := decodeLast_chunk m hne
  rcases hd : m.drop (m.length - (DecodeLastRuneInString m).2) with _ | ⟨c, t⟩
  · exact c2 hd
  · rw [hd] at c1 c3 c4
    rw [← c4] at hsp
    obtain ⟨henc, _⟩ := encode_decode c t (chunk_good IsSpace isSpace_runeError c t hsp)
    rw [c3, List.take_length] at henc
    exact ht _ _ hsp (by rw [henc]; exact c1)

/-! ## The loops never run out of fuel -/

/-- The backward scan of `DecodeLastRuneInString` does the same with any fuel
that covers the distance from `start` down to `lim`; the decoder enters it
with `start = end - 2` and `lim >= end - 4`, and fuel `UTFMax + 1`. -/
theorem scan_fuel (s : GoString) (lim : Int) (fuel1 fuel2 : Nat) (start : Int)
    (h1 : start - lim < fuel1) (h2 : start - lim < fuel2) :
    DecodeLastRuneInString.scan s lim fuel1 start =
      DecodeLastRuneInString.scan s lim fuel2 start := by
  induction fuel1 generalizing fuel2 start with
  | zero =>
    rcases fuel2 with _ | n
    · rfl
    · simp only [DecodeLastRuneInString.scan]
      rw [if_neg (by omega)]
  | succ k ih =>
    rcases fuel2 with _ | n
    · simp only [DecodeLastRuneInString.scan]
      rw [if_neg (by omega)]
    · simp only [DecodeLastRuneInString.scan]
      split_ifs
      · rfl
      · exact ih n (start - 1) (by omega) (by omega)
      · rfl

theorem runeCount_loop_fuel (s : GoString) :
    ∀ fuel, s.length ≤ fuel →
      RuneCountInString.loop fuel s = RuneCountInString.loop s.length s := by
  generalize hn : s.length = n
  induction n using Nat.strong_induction_on generalizing s with
  | _ n ih =>
    intro fuel hfuel
    rcases s with _ | ⟨c, t⟩
    · subst hn; cases fuel <;> simp [RuneCountInString.loop]
    · obtain ⟨m, rfl⟩ : ∃ m, fuel = m + 1 := ⟨fuel - 1, by simp at hn; omega⟩
      have hs := decode_size (c :: t) (by simp)
      simp only [List.length_cons] at hn hs
      subst hn
      simp only [RuneCountInString.loop, List.length_cons, Nat.add_one_ne_zero, if_false]
      have hl : ((c :: t).drop (DecodeRuneInString (c :: t)).2).length ≤ t.length := by
        rw [List.length_drop, List.length_cons]; omega
      rw [ih _ (by omega) _ rfl m (by omega), ih _ (by omega) _ rfl t.length hl]

theorem Index_loop_bound (sep : GoString) (s : GoString) :
    ∀ i m, Index.loop sep i s = some m → i ≤ m ∧ m + sep.length ≤ i + s.length := by
  induction s with
  | nil =>
    intro i m h
    simp only [Index.loop] at h
    split_ifs at h with hs
    · simp only [Option.some.injEq] at h
      subst h; subst hs
      simp
  | cons c t ih =>
    intro i m h
    simp only [Index.loop] at h
    split_ifs at h with hp
    · simp only [Option.some.injEq] at h
      subst h
      simp only [HasPrefix, Bool.and_eq_true, decide_eq_true_eq] at hp
      exact ⟨le_refl _, by omega⟩
    · have := ih (i + 1) m h
      simp only [List.length_cons]
      omega

/-- The loop of `Split` on a non-empty separator does the same with any fuel
of at least the length of the string. -/
theorem Split_loop_fuel (sep : GoString) (hsep : sep ≠ []) (s : GoString) :
    ∀ fuel, s.length ≤ fuel → Split.loop sep fuel s = Split.loop sep s.length s := by
  have hpos : 0 < sep.length := List.length_pos.mpr hsep
  generalize hn : s.length = n
  induction n using Nat.strong_induction_on generalizing s with
  | _ n ih =>
    intro fuel hfuel
    have hnil : ∀ f, Index s sep = none → Split.loop sep f s = [s] := by
      intro f h
      cases f <;> simp [Split.loop, h]
    rcases hI : Index s sep with _ | m
    · rw [hnil _ hI, hnil _ hI]
    · have hb := Index_loop_bound sep s 0 m hI
      obtain ⟨f, rfl⟩ : ∃ f, fuel = f + 1 := ⟨fuel - 1, by omega⟩
      obtain ⟨k, rfl⟩ : ∃ k, n = k + 1 := ⟨n - 1, by omega⟩
      simp only [Split.loop, hI]
      have hl : (s.drop (m + sep.length)).length ≤ k := by
        rw [List.length_drop]; omega
      rw [ih _ (by omega) _ rfl f (by omega), ih _ (by omega) _ rfl k hl]

/-! ## The helper: validateGeneratedMessage -/

theorem HasPrefix_iff (s p : GoString) : HasPrefix s p = true ↔ ∃ rest, s = p ++ rest := by
  simp only [HasPrefix, Bool.and_eq_true, decide_eq_true_eq]
  constructor
  · rintro ⟨_, h2⟩
    refine ⟨s.drop p.length, ?_⟩
    conv_lhs => rw [← List.take_append_drop p.length s, h2]
  · rintro ⟨rest, rfl⟩
    simp

/-- The error of `validateGeneratedMessage`, check by check. -/
theorem validate_err (m : GoString) :
    (validateGeneratedMessage m).1 =
      if m = [] then some LLMError.EmptyResponse
      else if m.length > 100 * 1024 then some (LLMError.OversizedResponse m.length)
      else if ValidString m = false then some LLMError.InvalidEncoding
      else none := by
  unfold validateGeneratedMessage
  by_cases h1 : m = []
  · simp [h1]
  · by_cases h2 : m.length > 100 * 1024
    · simp [h1, h2]
    · by_cases h3 : ValidString m = false
      · simp [h1, h2, h3]
      · have h3' : ValidString m = true := by simpa using h3
        rw [if_neg h1, if_neg h2, if_neg h1, if_neg h2, if_neg h3, if_neg (by simp [h3'])]
        dsimp only
        split_ifs <;> rfl

/-- C1. `validateGeneratedMessage` applies its checks in a fixed order and the
first failure wins: the empty message gives EmptyResponse; otherwise a message
longer than 100*1024 bytes gives OversizedResponse with its byte count, well
formed or not; otherwise a message that is not well-formed UTF-8 gives
InvalidEncoding; otherwise the message passes. -/
theorem validate_checks_in_order (m : GoString) :
    (m = [] → (validateGeneratedMessage m).1 = some LLMError.EmptyResponse) ∧
    (m ≠ [] → m.length > 100 * 1024 →
      (validateGeneratedMessage m).1 = some (LLMError.OversizedResponse m.length)) ∧
    (m ≠ [] → m.length ≤ 100 * 1024 → ¬ WellFormedUTF8 m →
      (validateGeneratedMessage m).1 = some LLMError.InvalidEncoding) ∧
    (m ≠ [] → m.length ≤ 100 * 1024 → WellFormedUTF8 m →
      (validateGeneratedMessage m).1 = none) := by
  rw [validate_err]
  refine ⟨?_, ?_, ?_, ?_⟩
  · intro h; rw [if_pos h]
  · intro h1 h2; rw [if_neg h1, if_pos h2]
  · intro h1 h2 h3
    rw [← valid_iff_wellFormed] at h3
    rw [if_neg h1, if_neg (by omega), if_pos (by simpa using h3)]
  · intro h1 h2 h3
    rw [← valid_iff_wellFormed] at h3
    rw [if_neg h1, if_neg (by omega), if_neg (by simp [h3])]

/-! ## The helper: GenerateCommitMessage -/

/-- What `GenerateCommitMessage` returns when the configuration guard passes and
the process exits with code zero. -/
theorem generate_exit_zero (cfg : LLMConfig) (tr : TranslationSet)
    (run : GoString → ProcessOutcome) (hen : cfg.Enabled = true) (hcmd : cfg.Command ≠ [])
    (hexit : (run cfg.Command).err = none) :
    GenerateCommitMessage cfg tr run =
      if (validateGeneratedMessage (TrimSpace (run cfg.Command).output)).1 = none then
        if HasPrefix (TrimSpace (run cfg.Command).output) (lit "error:") then
          ⟨[], some (LLMError.UpstreamReportedError (TrimSpace (run cfg.Command).output)),
            [Effect.Log .Debug "Executing LLM command: %s" [.str cfg.Command],
              Effect.Spawn 30 "sh" [lit "-c", cfg.Command]] ++
            (validateGeneratedMessage (TrimSpace (run cfg.Command).output)).2⟩
        else
          ⟨TrimSpace (run cfg.Command).output, none,
            [Effect.Log .Debug "Executing LLM command: %s" [.str cfg.Command],
              Effect.Spawn 30 "sh" [lit "-c", cfg.Command]] ++
            (validateGeneratedMessage (TrimSpace (run cfg.Command).output)).2 ++
            [Effect.Log .Debug "Successfully generated commit message: %d characters"
              [.int (TrimSpace (run cfg.Command).output).length]]⟩
      else
        ⟨[], (validateGeneratedMessage (TrimSpace (run cfg.Command).output)).1,
          [Effect.Log .Debug "Executing LLM command: %s" [.str cfg.Command],
            Effect.Spawn 30 "sh" [lit "-c", cfg.Command]] ++
          (validateGeneratedMessage (TrimSpace (run cfg.Command).output)).2⟩ := by
  unfold GenerateCommitMessage
  simp only [hen, hcmd, hexit, Bool.not_true, Bool.false_eq_true, if_false]
  rcases validateGeneratedMessage (TrimSpace (run cfg.Command).output) with ⟨e, vlog⟩
  rcases e with _ | e
  · simp
  · simp

/-- C4. The configuration guard decides before anything is run: a disabled
configuration gives FeatureDisabled whatever the command, an enabled one with
the empty command gives CommandNotConfigured, both with no effect at all and
whatever the outside world would answer; a process is spawned exactly when
the configuration is enabled with a non-empty command, and then it is
`sh -c command` under the 30-second context. -/
theorem guard_short_circuit (cfg : LLMConfig) (tr : TranslationSet)
    (run : GoString → ProcessOutcome) :
    (cfg.Enabled = false →
      GenerateCommitMessage cfg tr run = ⟨[], some (LLMError.FeatureDisabled tr.LLMDisabled), []⟩) ∧
    (cfg.Enabled = true → cfg.Command = [] →
      GenerateCommitMessage cfg tr run =
        ⟨[], some (LLMError.CommandNotConfigured tr.LLMCommandNotConfigured), []⟩) ∧
    (∀ run', (cfg.Enabled = false ∨ cfg.Command = []) →
      GenerateCommitMessage cfg tr run' = GenerateCommitMessage cfg tr run) ∧
    ((∃ secs name args, Effect.Spawn secs name args ∈ (GenerateCommitMessage cfg tr run).trace) ↔
      (cfg.Enabled = true ∧ cfg.Command ≠ [])) ∧
    (∀ secs name args, Effect.Spawn secs name args ∈ (GenerateCommitMessage cfg tr run).trace →
      secs = 30 ∧ name = "sh" ∧ args = [lit "-c", cfg.Command]) := by
  have hdis : ∀ r, cfg.Enabled = false →
      GenerateCommitMessage cfg tr r = ⟨[], some (LLMError.FeatureDisabled tr.LLMDisabled), []⟩ := by
    intro r h
    simp [GenerateCommitMessage, h]
  have hemp : ∀ r, cfg.Enabled = true → cfg.Command = [] →
      GenerateCommitMessage cfg tr r =
        ⟨[], some (LLMError.CommandNotConfigured tr.LLMCommandNotConfigured), []⟩ := by
    intro r h1 h2
    simp [GenerateCommitMessage, h1, h2]
  have hvlog : ∀ m secs name args,
      Effect.Spawn secs name args ∉ (validateGeneratedMessage m).2 := by
    intro m secs name args
    unfold validateGeneratedMessage
    dsimp only
    split_ifs <;> simp
  have hmain : cfg.Enabled = true → cfg.Command ≠ [] →
      (Effect.Spawn 30 "sh" [lit "-c", cfg.Command] ∈ (GenerateCommitMessage cfg tr run).trace) ∧
      ∀ secs name args,
        Effect.Spawn secs name args ∈ (GenerateCommitMessage cfg tr run).trace →
        secs = 30 ∧ name = "sh" ∧ args = [lit "-c", cfg.Command] := by
    intro h1 h2
    rcases hp : (run cfg.Command).err with _ | err
    · rw [generate_exit_zero cfg tr run h1 h2 hp]
      have hv := hvlog (TrimSpace (run cfg.Command).output)
      split_ifs <;> simp <;> intro secs name args h <;>
        exact h.resolve_right (hv secs name args)
    · unfold GenerateCommitMessage
      simp only [h1, h2, hp, Bool.not_true, Bool.false_eq_true, if_false]
      by_cases hd : (run cfg.Command).deadlineExceeded = true
      · simp [hd]
      · simp only [hd, if_false]
        rcases err with ⟨stderr, text⟩ | text
        · dsimp only
          split_ifs <;> simp
        · simp
  refine ⟨hdis run, hemp run, ?_, ?_, ?_⟩
  · intro run' h
    rcases h with h | h
    · rw [hdis run h, hdis run' h]
    · by_cases he : cfg.Enabled = true
      · rw [hemp run he h, hemp run' he h]
      · have he' : cfg.Enabled = false := by simpa using he
        rw [hdis run he', hdis run' he']
  · constructor
    · rintro ⟨secs, name, args, h⟩
      by_cases he : cfg.Enabled = true
      · refine ⟨he, ?_⟩
        intro hc
        rw [hemp run he hc] at h
        simp at h
      · have he' : cfg.Enabled = false := by simpa using he
        rw [hdis run he'] at h
        simp at h
    · rintro ⟨h1, h2⟩
      exact ⟨_, _, _, (hmain h1 h2).1⟩
  · intro secs name args h
    by_cases he : cfg.Enabled = true
    · by_cases hc : cfg.Command = []
      · rw [hemp run he hc] at h
        simp at h
      · exact (hmain he hc).2 secs name args h
    · have he' : cfg.Enabled = false := by simpa using he
      rw [hdis run he'] at h
      simp at h

/-- C5. On every configuration and every answer of the outside world,
`GenerateCommitMessage` returns either a nil error with a non-empty message, or
a non-nil error with the empty message. -/
theorem exactly_one_result (cfg : LLMConfig) (tr : TranslationSet)
    (run : GoString → ProcessOutcome) :
    ((GenerateCommitMessage cfg tr run).err = none ∧
      (GenerateCommitMessage cfg tr run).message ≠ []) ∨
    ((GenerateCommitMessage cfg tr run).err ≠ none ∧
      (GenerateCommitMessage cfg tr run).message = []) := by
  by_cases he : cfg.Enabled = true
  · by_cases hc : cfg.Command = []
    · right; simp [GenerateCommitMessage, he, hc]
    · rcases hp : (run cfg.Command).err with _ | err
      · rw [generate_exit_zero cfg tr run he hc hp]
        by_cases hv : (validateGeneratedMessage (TrimSpace (run cfg.Command).output)).1 = none
        · rw [if_pos hv]
          by_cases hm : HasPrefix (TrimSpace (run cfg.Command).output) (lit "error:") = true
          · right; simp [hm]
          · left
            rw [if_neg hm]
            refine ⟨rfl, ?_⟩
            intro hnil
            change TrimSpace (run cfg.Command).output = [] at hnil
            rw [validate_err, if_pos hnil] at hv
            exact absurd hv (by simp)
        · right
          rw [if_neg hv]
          exact ⟨hv, rfl⟩
      · right
        unfold GenerateCommitMessage
        simp only [he, hc, hp, Bool.not_true, Bool.false_eq_true, if_false]
        by_cases hd : (run cfg.Command).deadlineExceeded = true
        · simp [hd]
        · simp only [hd, if_false]
          rcases err with ⟨stderr, text⟩ | text
          · dsimp only
            split_ifs <;> simp
          · simp
  · right
    have he' : cfg.Enabled = false := by simpa using he
    simp [GenerateCommitMessage, he']

/-- C2. With the guard passed and exit code zero, a trimmed output that
passes validation and begins with the marker "error:" is returned as a
failure, UpstreamReportedError, whose text is the trimmed output, byte for
byte; the returned message is empty. -/
theorem error_marker_reclassified (cfg : LLMConfig) (tr : TranslationSet)
    (run : GoString → ProcessOutcome) (hen : cfg.Enabled = true) (hcmd : cfg.Command ≠ [])
    (hexit : (run cfg.Command).err = none)
    (hval : (validateGeneratedMessage (TrimSpace (run cfg.Command).output)).1 = none)
    (hmark : ∃ rest, TrimSpace (run cfg.Command).output = lit "error:" ++ rest) :
    (GenerateCommitMessage cfg tr run).err =
      some (LLMError.UpstreamReportedError (TrimSpace (run cfg.Command).output)) ∧
    (GenerateCommitMessage cfg tr run).message = [] ∧
    (∀ e, (GenerateCommitMessage cfg tr run).err = some e →
      e.Error = TrimSpace (run cfg.Command).output) := by
  have hp := (HasPrefix_iff _ _).mpr hmark
  rw [generate_exit_zero cfg tr run hen hcmd hexit, if_pos hval, if_pos hp]
  refine ⟨rfl, rfl, ?_⟩
  intro e he
  simp only [Option.some.injEq] at he
  rw [← he]
  rfl

/-- C2 at the output of `echo 'error: API rate limit exceeded'`, and at an
output with a percent sign in it. -/
theorem error_marker_reclassified_witness :
    (GenerateCommitMessage (enabledWith "echo 'error: API rate limit exceeded'") testTr
        (printing (lit "error: API rate limit exceeded\n"))).err =
      some (LLMError.UpstreamReportedError (lit "error: API rate limit exceeded")) ∧
    (∀ e, (GenerateCommitMessage (enabledWith "echo 'error: 100%s used'") testTr
        (printing (lit "error: 100%s used\n"))).err = some e →
      e.Error = lit "error: 100%s used") :=
  ⟨(error_marker_reclassified (enabledWith "echo 'error: API rate limit exceeded'") testTr
      (printing (lit "error: API rate limit exceeded\n")) (by decide) (by decide) (by decide)
      (by decide) ⟨lit " API rate limit exceeded", by decide⟩).1,
   (error_marker_reclassified (enabledWith "echo 'error: 100%s used'") testTr
      (printing (lit "error: 100%s used\n")) (by decide) (by decide) (by decide)
      (by decide) ⟨lit " 100%s used", by decide⟩).2.2⟩

/-- C3. When running the command returned an error, the failure is classified
in this order: Timeout when the deadline fired, whatever the exit status and
the captured standard error; otherwise CommandFailed with the trimmed standard
error when the process exited unsuccessfully with non-empty captured standard
error; otherwise ExecutionFailed with the text of the system error.  The
message is empty and the standard output plays no part in the result. -/
theorem failure_classification (cfg : LLMConfig) (tr : TranslationSet)
    (run : GoString → ProcessOutcome) (err : ExecError)
    (hen : cfg.Enabled = true) (hcmd : cfg.Command ≠ [])
    (herr : (run cfg.Command).err = some err) :
    ((run cfg.Command).deadlineExceeded = true →
      (GenerateCommitMessage cfg tr run).err = some LLMError.Timeout) ∧
    ((run cfg.Command).deadlineExceeded = false →
      ∀ stderr text, err = ExecError.ExitError stderr text → stderr ≠ [] →
        (GenerateCommitMessage cfg tr run).err =
          some (LLMError.CommandFailed (TrimSpace stderr))) ∧
    ((run cfg.Command).deadlineExceeded = false →
      (∀ stderr text, err = ExecError.ExitError stderr text → stderr = []) →
        (GenerateCommitMessage cfg tr run).err = some (LLMError.ExecutionFailed err.Error)) ∧
    (GenerateCommitMessage cfg tr run).message = [] ∧
    (∀ out, GenerateCommitMessage cfg tr
        (fun c => ⟨out, (run c).err, (run c).deadlineExceeded⟩) =
      GenerateCommitMessage cfg tr run) ∧
    LLMError.Timeout.Error = lit "LLM " ++ lit "command timed out after 30 seconds" ∧
    (∀ d, (LLMError.CommandFailed d).Error = lit "LLM command failed: " ++ d) ∧
    (∀ d, (LLMError.ExecutionFailed d).Error = lit "failed to execute LLM command: " ++ d) := by
  refine ⟨?_, ?_, ?_, ?_, ?_, by decide, fun _ => rfl, fun _ => rfl⟩
  · intro hd
    simp [GenerateCommitMessage, hen, hcmd, herr, hd]
  · intro hd stderr text he hne
    subst he
    have hl : 0 < stderr.length := List.length_pos.mpr hne
    simp [GenerateCommitMessage, hen, hcmd, herr, hd, hl]
  · intro hd hno
    unfold GenerateCommitMessage
    simp only [hen, hcmd, herr, hd, Bool.not_true, Bool.false_eq_true, if_false]
    rcases err with ⟨stderr, text⟩ | text
    · have := hno stderr text rfl
      subst this
      simp
    · simp
  · unfold GenerateCommitMessage
    simp only [hen, hcmd, herr, Bool.not_true, Bool.false_eq_true, if_false]
    split_ifs
    · rfl
    · rcases err with ⟨stderr, text⟩ | text
      · dsimp only
        split_ifs <;> rfl
      · rfl
  · intro out
    unfold GenerateCommitMessage
    simp only [hen, hcmd, herr, Bool.not_true, Bool.false_eq_true, if_false]

/-- C3 at `echo 'msg' >&2; exit 1`, at `exit 1`, and at a command killed by the deadline. -/
theorem failure_classification_witness :
    (GenerateCommitMessage (enabledWith "echo 'msg' >&2; exit 1") testTr
        (failing (ExecError.ExitError (lit "msg\n") (lit "exit status 1")) false)).err =
      some (LLMError.CommandFailed (lit "msg")) ∧
    (GenerateCommitMessage (enabledWith "exit 1") testTr
        (failing (ExecError.ExitError [] (lit "exit status 1")) false)).err =
      some (LLMError.ExecutionFailed (lit "exit status 1")) ∧
    (GenerateCommitMessage (enabledWith "sleep 60") testTr
        (failing (ExecError.ExitError (lit "late\n") (lit "signal: killed")) true)).err =
      some LLMError.Timeout :=
  ⟨(failure_classification (enabledWith "echo 'msg' >&2; exit 1") testTr
      (failing (ExecError.ExitError (lit "msg\n") (lit "exit status 1")) false) _
      (by decide) (by decide) rfl).2.1 rfl (lit "msg\n") (lit "exit status 1") rfl (by decide),
   (failure_classification (enabledWith "exit 1") testTr
      (failing (ExecError.ExitError [] (lit "exit status 1")) false) _
      (by decide) (by decide) rfl).2.2.1 rfl (by intro s t h; cases h; rfl),
   (failure_classification (enabledWith "sleep 60") testTr
      (failing (ExecError.ExitError (lit "late\n") (lit "signal: killed")) true) _
      (by decide) (by decide) rfl).1 rfl⟩

/-- C6. With the guard passed and exit code zero: a successful call returns
the output with white space characters removed from both ends and nothing
else changed, and it is the only string that is the output less white space
at both ends and has none at either end; the message has no white space
character at either end, is not empty, is at most 100*1024 bytes long, is
well-formed UTF-8 and does not begin with "error:".  Conversely the call
succeeds with the trimmed output whenever the trimmed output is not empty, at
most 100*1024 bytes long, well-formed UTF-8 and does not begin with "error:". -/
theorem success_postcondition (cfg : LLMConfig) (tr : TranslationSet)
    (run : GoString → ProcessOutcome) (hen : cfg.Enabled = true) (hcmd : cfg.Command ≠ [])
    (hexit : (run cfg.Command).err = none) :
    ((GenerateCommitMessage cfg tr run).err = none →
      (GenerateCommitMessage cfg tr run).message = TrimSpace (run cfg.Command).output ∧
      (∃ pre post, (run cfg.Command).output =
          pre ++ (GenerateCommitMessage cfg tr run).message ++ post ∧
        IsWhitespace pre ∧ IsWhitespace post) ∧
      (∀ m pre post, (run cfg.Command).output = pre ++ m ++ post →
        IsWhitespace pre → IsWhitespace post → m ≠ [] →
        (∀ r rest, IsSpace r = true → m ≠ EncodeRune r ++ rest) →
        (∀ r p, IsSpace r = true → m ≠ p ++ EncodeRune r) →
        (GenerateCommitMessage cfg tr run).message = m) ∧
      (∀ r rest, IsSpace r = true →
        (GenerateCommitMessage cfg tr run).message ≠ EncodeRune r ++ rest) ∧
      (∀ r pre, IsSpace r = true →
        (GenerateCommitMessage cfg tr run).message ≠ pre ++ EncodeRune r) ∧
      (GenerateCommitMessage cfg tr run).message ≠ [] ∧
      (GenerateCommitMessage cfg tr run).message.length ≤ 100 * 1024 ∧
      WellFormedUTF8 (GenerateCommitMessage cfg tr run).message ∧
      ¬ ∃ rest, (GenerateCommitMessage cfg tr run).message = lit "error:" ++ rest) ∧
    (TrimSpace (run cfg.Command).output ≠ [] →
      (TrimSpace (run cfg.Command).output).length ≤ 100 * 1024 →
      WellFormedUTF8 (TrimSpace (run cfg.Command).output) →
      (¬ ∃ rest, TrimSpace (run cfg.Command).output = lit "error:" ++ rest) →
      (GenerateCommitMessage cfg tr run).err = none ∧
      (GenerateCommitMessage cfg tr run).message = TrimSpace (run cfg.Command).output) := by
  have hG := generate_exit_zero cfg tr run hen hcmd hexit
  have hV := validate_err (TrimSpace (run cfg.Command).output)
  constructor
  · intro hok
    by_cases hv : (validateGeneratedMessage (TrimSpace (run cfg.Command).output)).1 = none
    · rw [if_pos hv] at hG
      by_cases hm : HasPrefix (TrimSpace (run cfg.Command).output) (lit "error:") = true
      · rw [if_pos hm] at hG
        rw [hG] at hok
        exact absurd hok (by simp)
      · rw [if_neg hm] at hG
        have hmsg : (GenerateCommitMessage cfg tr run).message =
            TrimSpace (run cfg.Command).output := by rw [hG]
        rw [hmsg]
        obtain ⟨s1, s2, s3⟩ := TrimSpace_spec (run cfg.Command).output
        rw [hV] at hv
        by_cases h1 : TrimSpace (run cfg.Command).output = []
        · rw [if_pos h1] at hv; exact absurd hv (by simp)
        · rw [if_neg h1] at hv
          by_cases h2 : (TrimSpace (run cfg.Command).output).length > 100 * 1024
          · rw [if_pos h2] at hv; exact absurd hv (by simp)
          · rw [if_neg h2] at hv
            by_cases h3 : ValidString (TrimSpace (run cfg.Command).output) = false
            · rw [if_pos h3] at hv; exact absurd hv (by simp)
            · refine ⟨rfl, s1, ?_, s2, s3, h1, by omega, ?_, ?_⟩
              · intro m pre post e1 e2 e3 e4 e5 e6
                exact TrimSpace_unique _ m pre post e1 e2 e3 e4 e5 e6
              · exact (valid_iff_wellFormed _).mp (by simpa using h3)
              · intro hex
                exact hm ((HasPrefix_iff _ _).mpr hex)
    · rw [if_neg hv] at hG
      rw [hG] at hok
      exact absurd hok hv
  · intro h1 h2 h3 h4
    have h3' := (valid_iff_wellFormed _).mpr h3
    have hv : (validateGeneratedMessage (TrimSpace (run cfg.Command).output)).1 = none := by
      rw [hV, if_neg h1, if_neg (by omega), if_neg (by simp [h3'])]
    have hm : ¬ HasPrefix (TrimSpace (run cfg.Command).output) (lit "error:") = true :=
      fun hp => h4 ((HasPrefix_iff _ _).mp hp)
    rw [hG, if_pos hv, if_neg hm]
    exact ⟨rfl, rfl⟩

/-- C6 at the output of `echo 'feat: add new feature'`. -/
theorem success_postcondition_witness :
    (GenerateCommitMessage (enabledWith "echo 'feat: add new feature'") testTr
        (printing (lit "feat: add new feature\n"))).err = none ∧
    (GenerateCommitMessage (enabledWith "echo 'feat: add new feature'") testTr
        (printing (lit "feat: add new feature\n"))).message = lit "feat: add new feature" :=
  (success_postcondition (enabledWith "echo 'feat: add new feature'") testTr
      (printing (lit "feat: add new feature\n")) (by decide) (by decide) (by decide)).2
    (by decide) (by decide) ((valid_iff_wellFormed _).mp (by decide))
    (fun h => absurd ((HasPrefix_iff _ _).mpr h) (by decide))

/-- C8. Trimming is idempotent, so feeding the already-trimmed output through the
helper gives the same result as feeding the raw output: the same message, the
same error and the same trace. -/
theorem trim_idempotence (cfg : LLMConfig) (tr : TranslationSet)
    (run : GoString → ProcessOutcome) :
    (∀ o, TrimSpace (TrimSpace o) = TrimSpace o) ∧
    (∀ o, validateGeneratedMessage (TrimSpace (TrimSpace o)) =
      validateGeneratedMessage (TrimSpace o)) ∧
    GenerateCommitMessage cfg tr
        (fun c => ⟨TrimSpace (run c).output, (run c).err, (run c).deadlineExceeded⟩) =
      GenerateCommitMessage cfg tr run := by
  refine ⟨TrimSpace_idem, fun o => by rw [TrimSpace_idem], ?_⟩
  unfold GenerateCommitMessage
  simp only [TrimSpace_idem]

/-- C9. With the guard passed and exit code zero, an output that is empty or
consists only of white space characters gives EmptyResponse, with the text
"empty response from LLM command" and the empty message. -/
theorem whitespace_output_rejected (cfg : LLMConfig) (tr : TranslationSet)
    (run : GoString → ProcessOutcome) (hen : cfg.Enabled = true) (hcmd : cfg.Command ≠ [])
    (hexit : (run cfg.Command).err = none) (hws : IsWhitespace (run cfg.Command).output) :
    (GenerateCommitMessage cfg tr run).err = some LLMError.EmptyResponse ∧
    (GenerateCommitMessage cfg tr run).message = [] ∧
    LLMError.EmptyResponse.Error = lit "empty response from LLM command" := by
  have ht := TrimSpace_whitespace _ hws
  have hv : (validateGeneratedMessage (TrimSpace (run cfg.Command).output)).1 =
      some LLMError.EmptyResponse := by
    rw [validate_err, if_pos ht]
  rw [generate_exit_zero cfg tr run hen hcmd hexit, if_neg (by rw [hv]; simp)]
  exact ⟨hv, rfl, rfl⟩

/-- C9 at the single newline printed by `echo ''`, and at a mixed run of
white space (space, tab, no-break space, em space, newline). -/
theorem whitespace_output_rejected_witness :
    (GenerateCommitMessage (enabledWith "echo ''") testTr (printing (lit "\n"))).err =
      some LLMError.EmptyResponse ∧
    (GenerateCommitMessage (enabledWith "cat blank.txt") testTr
        (printing [0x20, 0x09, 0xC2, 0xA0, 0xE2, 0x80, 0x83, 0x0A])).err =
      some LLMError.EmptyResponse :=
  ⟨(whitespace_output_rejected (enabledWith "echo ''") testTr (printing (lit "\n"))
      (by decide) (by decide) (by decide) ⟨[0x0A], by decide, by decide⟩).1,
   (whitespace_output_rejected (enabledWith "cat blank.txt") testTr
      (printing [0x20, 0x09, 0xC2, 0xA0, 0xE2, 0x80, 0x83, 0x0A])
      (by decide) (by decide) (by decide)
      ⟨[0x20, 0x09, 0xA0, 0x2003, 0x0A], by decide, by decide⟩).1⟩

/-! ## Outputs that are not well-formed UTF-8 -/

/-- A string that starts and ends with ASCII bytes other than white space is
left as it is by `TrimSpace`. -/
theorem TrimSpace_ascii_ends (a z : Byte) (mid : GoString)
    (ha : a.val < 0x80) (ha' : asciiSpace a = 0) (hz : z.val < 0x80) (hz' : asciiSpace z = 0) :
    TrimSpace (a :: (mid ++ [z])) = a :: (mid ++ [z]) := by
  have hra : ¬ a.val ≥ RuneSelf := by simp only [RuneSelf]; omega
  have hrz : ¬ z.val ≥ RuneSelf := by simp only [RuneSelf]; omega
  have hrev : (a :: (mid ++ [z])).reverse = z :: (mid.reverse ++ [a]) := by simp
  unfold TrimSpace
  rw [TrimSpace.loop1, if_neg hra, if_pos ha', hrev, TrimSpace.loop2, if_neg hrz, if_pos hz',
    ← hrev, List.reverse_reverse]

/-- A string whose second byte is 0x80 after an ASCII byte is not valid UTF-8. -/
theorem invalid_second_byte (a : Byte) (t : GoString) (ha : a.val < 0x80) :
    ValidString (a :: 0x80 :: t) = false := by
  rw [valid_cons, decode_ascii _ _ ha]
  simp only [List.drop_succ_cons, List.drop_zero]
  rw [valid_cons, decode_xx _ _ (by decide)]
  have h80 : ¬ ((0x80 : Byte).val < 0x80) := by decide
  simp [h80]

/-- What the helper does with an output of the shape of `oversizedInvalid`. -/
theorem oversized_invalid_result (cfg : LLMConfig) (tr : TranslationSet)
    (run : GoString → ProcessOutcome) (hen : cfg.Enabled = true) (hcmd : cfg.Command ≠ [])
    (hexit : (run cfg.Command).err = none) (fill : GoString) (hfill : fill.length = 102398)
    (hout : (run cfg.Command).output = 0x61 :: ((0x80 :: fill) ++ [0x63])) :
    ¬ WellFormedUTF8 (run cfg.Command).output ∧
    (GenerateCommitMessage cfg tr run).err = some (LLMError.OversizedResponse 102401) := by
  have htrim : TrimSpace (run cfg.Command).output = (run cfg.Command).output := by
    rw [hout]
    exact TrimSpace_ascii_ends _ _ _ (by decide) (by decide) (by decide) (by decide)
  have hlen : ((run cfg.Command).output).length = 102401 := by
    rw [hout]
    simp only [List.length_cons, List.length_append, List.length_nil, hfill]
  have hne : (run cfg.Command).output ≠ [] := by rw [hout]; exact List.cons_ne_nil _ _
  constructor
  · rw [← valid_iff_wellFormed, hout, List.cons_append, invalid_second_byte _ _ (by decide)]
    simp
  · have hv : (validateGeneratedMessage (TrimSpace (run cfg.Command).output)).1 =
        some (LLMError.OversizedResponse 102401) := by
      rw [validate_err, htrim, if_neg hne, if_pos (by rw [hlen]; decide), hlen]
    rw [generate_exit_zero cfg tr run hen hcmd hexit, if_neg (by rw [hv]; simp)]
    exact hv

/-- C7, as stated, fails: an output of 100*1024+1 bytes that is not well-formed
UTF-8 and has no white space to trim is rejected as OversizedResponse, not as
InvalidEncoding. -/
theorem invalid_oversized_counterexample :
    ¬ WellFormedUTF8 oversizedInvalid ∧
    (GenerateCommitMessage (enabledWith "cat dump.bin") testTr (printing oversizedInvalid)).err =
      some (LLMError.OversizedResponse 102401) ∧
    (GenerateCommitMessage (enabledWith "cat dump.bin") testTr (printing oversizedInvalid)).err ≠
      some LLMError.InvalidEncoding := by
  have h := oversized_invalid_result (enabledWith "cat dump.bin") testTr (printing oversizedInvalid)
    (by decide) (by decide) rfl (List.replicate 102398 0x62) (List.length_replicate _ _) rfl
  refine ⟨h.1, h.2, ?_⟩
  rw [h.2]
  simp

/-- C7, amended. With the guard passed and exit code zero, an output that is
not well-formed UTF-8 is never returned as a message: trimming leaves it
non-empty and not well-formed, and the result is InvalidEncoding when the
trimmed output is at most 100*1024 bytes long, OversizedResponse (the earlier
check) when it is longer. -/
theorem invalid_output_rejected (cfg : LLMConfig) (tr : TranslationSet)
    (run : GoString → ProcessOutcome) (hen : cfg.Enabled = true) (hcmd : cfg.Command ≠ [])
    (hexit : (run cfg.Command).err = none)
    (hbad : ¬ WellFormedUTF8 (run cfg.Command).output) :
    TrimSpace (run cfg.Command).output ≠ [] ∧
    ¬ WellFormedUTF8 (TrimSpace (run cfg.Command).output) ∧
    (GenerateCommitMessage cfg tr run).err ≠ none ∧
    (GenerateCommitMessage cfg tr run).message = [] ∧
    ((TrimSpace (run cfg.Command).output).length ≤ 100 * 1024 →
      (GenerateCommitMessage cfg tr run).err = some LLMError.InvalidEncoding) ∧
    ((TrimSpace (run cfg.Command).output).length > 100 * 1024 →
      (GenerateCommitMessage cfg tr run).err =
        some (LLMError.OversizedResponse (TrimSpace (run cfg.Command).output).length)) := by
  have hinv : ValidString (TrimSpace (run cfg.Command).output) = false := by
    by_contra hn
    have hv : ValidString (TrimSpace (run cfg.Command).output) = true := by simpa using hn
    exact hbad ((valid_iff_wellFormed _).mp (valid_of_valid_TrimSpace _ hv))
  have hne : TrimSpace (run cfg.Command).output ≠ [] := by
    intro hnil
    rw [hnil, valid_nil] at hinv
    exact absurd hinv (by simp)
  have hV := validate_err (TrimSpace (run cfg.Command).output)
  rw [if_neg hne] at hV
  have hG := generate_exit_zero cfg tr run hen hcmd hexit
  have hsome : (validateGeneratedMessage (TrimSpace (run cfg.Command).output)).1 ≠ none := by
    rw [hV]
    split_ifs
    · simp
    · simp
  rw [if_neg hsome] at hG
  refine ⟨hne, ?_, ?_, ?_, ?_, ?_⟩
  · intro hw
    rw [(valid_iff_wellFormed _).mpr hw] at hinv
    exact absurd hinv (by simp)
  · rw [hG]; exact hsome
  · rw [hG]
  · intro hle
    rw [hG]
    simp only
    rw [hV, if_neg (by omega), if_pos hinv]
  · intro hgt
    rw [hG]
    simp only
    rw [hV, if_pos hgt]

/-- C7, amended, at the invalid message of the unit test followed by a newline. -/
theorem invalid_output_rejected_witness :
    (GenerateCommitMessage (enabledWith "cat broken.txt") testTr
        (printing [0x74, 0x65, 0x73, 0x74, 0x80, 0x81, 0x0A])).err =
      some LLMError.InvalidEncoding :=
  (invalid_output_rejected (enabledWith "cat broken.txt") testTr
      (printing [0x74, 0x65, 0x73, 0x74, 0x80, 0x81, 0x0A]) (by decide) (by decide) (by decide)
      (fun h => absurd ((valid_iff_wellFormed _).mpr h) (by decide))).2.2.2.2.1 (by decide)

/-! ## The advisory warning on the subject line -/

theorem lit_newline : lit "\n" = [0x0A] := by decide

theorem takeWhile_newline_cons (c : Byte) (t : GoString) (hc : c ≠ 0x0A) :
    (c :: t).takeWhile (fun c => c ≠ 0x0A) = c :: t.takeWhile (fun c => c ≠ 0x0A) := by
  rw [List.takeWhile_cons, if_pos (by simpa using hc)]

theorem takeWhile_newline_stop (t : GoString) :
    ((0x0A : Byte) :: t).takeWhile (fun c => c ≠ 0x0A) = [] := by
  rw [List.takeWhile_cons, if_neg (by simp)]

theorem Index_loop_newline (s : GoString) :
    ∀ i, (Index.loop [0x0A] i s = none ∧ s.takeWhile (fun c => c ≠ 0x0A) = s) ∨
      (∃ k, Index.loop [0x0A] i s = some (i + k) ∧ s.take k = s.takeWhile (fun c => c ≠ 0x0A)) := by
  induction s with
  | nil => intro i; left; simp [Index.loop]
  | cons c t ih =>
    intro i
    by_cases hc : c = 0x0A
    · right
      subst hc
      refine ⟨0, ?_, ?_⟩
      · simp [Index.loop, HasPrefix]
      · rw [takeWhile_newline_stop]; rfl
    · have hp : HasPrefix (c :: t) [0x0A] = false := by simp [HasPrefix, hc]
      rw [takeWhile_newline_cons c t hc]
      rcases ih (i + 1) with ⟨h1, h2⟩ | ⟨k, h1, h2⟩
      · left
        rw [h2]
        simp only [Index.loop, hp, Bool.false_eq_true, if_false, h1]
        exact ⟨trivial, trivial⟩
      · right
        refine ⟨k + 1, ?_, ?_⟩
        · simp only [Index.loop, hp, Bool.false_eq_true, if_false, h1]
          congr 1
          omega
        · rw [List.take_succ_cons, h2]

/-- The first element of `strings.Split(s, "\n")` is `s` up to its first newline. -/
theorem Split_newline_first (s : GoString) :
    (Split s (lit "\n")).length > 0 ∧
    (Split s (lit "\n")).getD 0 [] = s.takeWhile (fun c => c ≠ 0x0A) := by
  rw [lit_newline]
  unfold Split
  rcases s with _ | ⟨c, t⟩
  · simp [Split.loop]
  · simp only [List.length_cons, Split.loop, Index]
    rcases Index_loop_newline (c :: t) 0 with ⟨h1, h2⟩ | ⟨k, h1, h2⟩
    · rw [h1, h2]
      exact ⟨Nat.zero_lt_one, rfl⟩
    · rw [h1, ← h2]
      exact ⟨Nat.succ_pos _, by rw [Nat.zero_add]; rfl⟩

/-- What the code does about the warning: a message that passes the checks
succeeds whatever its first line, and one warning is logged exactly when the
first line is longer than 72 bytes. -/
theorem subject_warning_by_bytes (m : GoString) (h1 : m ≠ []) (h2 : m.length ≤ 100 * 1024)
    (h3 : WellFormedUTF8 m) :
    (validateGeneratedMessage m).1 = none ∧
    ((m.takeWhile (fun c => c ≠ 0x0A)).length > 72 →
      (validateGeneratedMessage m).2 =
        [Effect.Log .Warn "Generated commit subject exceeds 72 characters: %d"
          [.int (m.takeWhile (fun c => c ≠ 0x0A)).length]]) ∧
    ((m.takeWhile (fun c => c ≠ 0x0A)).length ≤ 72 → (validateGeneratedMessage m).2 = []) := by
  have h3' := (valid_iff_wellFormed m).mpr h3
  obtain ⟨s1, s2⟩ := Split_newline_first m
  refine ⟨by rw [validate_err, if_neg h1, if_neg (by omega), if_neg (by simp [h3'])], ?_, ?_⟩
  · intro hl
    unfold validateGeneratedMessage
    rw [if_neg h1, if_neg (by omega), if_neg (by simp [h3'])]
    dsimp only
    rw [s2, if_pos ⟨s1, hl⟩]
  · intro hl
    unfold validateGeneratedMessage
    rw [if_neg h1, if_neg (by omega), if_neg (by simp [h3'])]
    dsimp only
    rw [s2, if_neg (by omega)]

/-- C10 on the code: twenty-five euro signs are a well-formed subject line of
25 characters, yet validation, which succeeds, logs the warning that the
subject exceeds 72 characters, since it counts the 75 bytes. -/
theorem subject_warning_counts_bytes :
    ValidString euros25 = true ∧
    Split euros25 (lit "\n") = [euros25] ∧
    RuneCountInString euros25 = 25 ∧
    euros25.length = 75 ∧
    validateGeneratedMessage euros25 =
      (none, [Effect.Log .Warn "Generated commit subject exceeds 72 characters: %d" [.int 75]]) := by
  decide

/-! ## The scenarios of the unit tests -/

theorem flatMap_encode_ascii (n : Nat) (c : Nat) (hc : c ≤ 0x7F) :
    (List.replicate n c).flatMap EncodeRune = List.replicate n (Fin.ofNat c) := by
  induction n with
  | zero => rfl
  | succ k ih =>
    rw [List.replicate_succ, List.flatMap_cons, ih, encode_eq, if_pos hc, List.replicate_succ]
    rfl

theorem wellFormed_replicate_ascii (n : Nat) : WellFormedUTF8 (List.replicate n (0x61 : Byte)) := by
  refine ⟨List.replicate n 0x61, ?_, ?_⟩
  · intro r hr
    rw [List.eq_of_mem_replicate hr]
    decide
  · rw [flatMap_encode_ascii n 0x61 (by decide)]
    rfl

theorem replicate_ne_nil (n : Nat) (c : Byte) (hn : 0 < n) : List.replicate n c ≠ [] := by
  intro h
  have := congrArg List.length h
  rw [List.length_replicate, List.length_nil] at this
  omega

/-- C1 on the scenarios of `TestLLMHelper_validateGeneratedMessage` and at the
boundary: the empty message, 101*1024 zero bytes, invalid UTF-8, a short valid
message, a valid message of exactly 100*1024 bytes, and one byte more. -/
theorem validate_checks_in_order_witness :
    (validateGeneratedMessage []).1 = some LLMError.EmptyResponse ∧
    (validateGeneratedMessage (List.replicate (101 * 1024) 0x00)).1 =
      some (LLMError.OversizedResponse (List.replicate (101 * 1024) (0x00 : Byte)).length) ∧
    (validateGeneratedMessage [0x74, 0x65, 0x73, 0x74, 0x80, 0x81]).1 =
      some LLMError.InvalidEncoding ∧
    (validateGeneratedMessage (lit "feat: add new feature")).1 = none ∧
    (validateGeneratedMessage (List.replicate (100 * 1024) 0x61)).1 = none ∧
    (validateGeneratedMessage (List.replicate (100 * 1024 + 1) 0x61)).1 =
      some (LLMError.OversizedResponse (List.replicate (100 * 1024 + 1) (0x61 : Byte)).length) :=
  ⟨(validate_checks_in_order []).1 rfl,
   (validate_checks_in_order (List.replicate (101 * 1024) 0x00)).2.1
      (replicate_ne_nil _ _ (by decide)) (by rw [List.length_replicate]; decide),
   (validate_checks_in_order [0x74, 0x65, 0x73, 0x74, 0x80, 0x81]).2.2.1 (by decide) (by decide)
      (fun h => absurd ((valid_iff_wellFormed _).mpr h) (by decide)),
   (validate_checks_in_order (lit "feat: add new feature")).2.2.2 (by decide) (by decide)
      ((valid_iff_wellFormed _).mp (by decide)),
   (validate_checks_in_order (List.replicate (100 * 1024) 0x61)).2.2.2
      (replicate_ne_nil _ _ (by decide)) (by rw [List.length_replicate])
      (wellFormed_replicate_ascii _),
   (validate_checks_in_order (List.replicate (100 * 1024 + 1) 0x61)).2.1
      (replicate_ne_nil _ _ (by decide)) (by rw [List.length_replicate]; decide)⟩

/-- C4 on the scenarios of `TestLLMHelper_GenerateCommitMessage`: a disabled
configuration with a command, and an enabled one without. -/
theorem guard_short_circuit_witness :
    GenerateCommitMessage ⟨false, lit "echo 'test'"⟩ testTr (printing (lit "test\n")) =
      ⟨[], some (LLMError.FeatureDisabled (lit "LLM commit generation is disabled in config")),
        []⟩ ∧
    GenerateCommitMessage ⟨true, []⟩ testTr (printing (lit "test\n")) =
      ⟨[], some (LLMError.CommandNotConfigured (lit "LLM command is not configured")), []⟩ :=
  ⟨(guard_short_circuit ⟨false, lit "echo 'test'"⟩ testTr (printing (lit "test\n"))).1 rfl,
   (guard_short_circuit ⟨true, []⟩ testTr (printing (lit "test\n"))).2.1 rfl rfl⟩

end Lazygit
